import Mathlib

/-!
Verification development for the isocontour extractor.

The Python/Taichi sources under src/cglib are shallowly embedded below:
pure index arithmetic becomes functions on ℤ (Taichi signed integers; the
Python floor division and modulo are Int.fdiv and Int.fmod), Taichi fields
become total functions ℤ → _ updated with Function.update (the kernels only
write at the indices shown in the code), scalar-field values become ℚ
(exact arithmetic standing in for the machine floats), and the serialized
double loops of the kernels become folds over the row-major cell list.
-/

namespace Iso

/-! ## Edge indexing (src/cglib/index.py) -/

/-- Embedding of index2d_to_edge_index: the four flat edge ids of the cell
at (x, y) for a grid of shape (W, H), returned in the code's order
(top, right, bottom, left). -/
def index2d_to_edge_index (W H x y : ℤ) : ℤ × ℤ × ℤ × ℤ :=
  (x * H + y,
   H * (W + 1) + x * (H + 1) + y + 1,
   (x + 1) * H + y,
   H * (W + 1) + x * (H + 1) + y)

/-- Flat id of the horizontal edge with 3d index (p, q, 0). -/
def hIdx (H p q : ℤ) : ℤ := p * H + q

/-- Flat id of the vertical edge with 3d index (x, t, 1). -/
def vIdx (W H x t : ℤ) : ℤ := H * (W + 1) + x * (H + 1) + t

/-- Embedding of edge_1d_to_3d_index (floor division and modulo as in
Python/Taichi). -/
def edge_1d_to_3d_index (W H edge : ℤ) : ℤ × ℤ × ℤ :=
  if edge < H * (W + 1) then
    (edge.fdiv H, edge.fmod H, 0)
  else
    ((edge - H * (W + 1)).fdiv (H + 1), (edge - H * (W + 1)).fmod (H + 1), 1)

/-- Embedding of edge_3d_to_1d_index.  The code initializes result to 0,
overwrites it in the z = 0 and z = 1 branches (with -1 on a failed bounds
check), and returns it; for any other z the initial 0 survives. -/
def edge_3d_to_1d_index (W H x y z : ℤ) : ℤ :=
  if z = 0 then
    (if x < 0 ∨ x > W ∨ y < 0 ∨ y ≥ H then -1 else x * H + y)
  else if z = 1 then
    (if x < 0 ∨ x ≥ W ∨ y < 0 ∨ y > H then -1 else H * (W + 1) + x * (H + 1) + y)
  else 0

lemma fdiv_mul_add {x y H : ℤ} (hH : 0 < H) (hy0 : 0 ≤ y) (hyH : y < H) :
    (x * H + y).fdiv H = x := by
  rw [Int.fdiv_eq_ediv _ (le_of_lt hH), add_comm,
    Int.add_mul_ediv_right _ _ (ne_of_gt hH),
    Int.ediv_eq_zero_of_lt hy0 hyH, zero_add]

lemma fmod_mul_add {x y H : ℤ} (hH : 0 < H) (hy0 : 0 ≤ y) (hyH : y < H) :
    (x * H + y).fmod H = y := by
  rw [Int.fmod_eq_emod _ (le_of_lt hH), add_comm, Int.add_mul_emod_self]
  exact Int.emod_eq_of_lt hy0 hyH

/-- In-range 3d edge indices in the sense of the spec: z = 0 (horizontal)
with 0 ≤ x ≤ W and 0 ≤ y < H, or z = 1 (vertical) with 0 ≤ x < W and
0 ≤ y ≤ H. -/
def edge3dInRange (W H x y z : ℤ) : Prop :=
  (z = 0 ∧ 0 ≤ x ∧ x ≤ W ∧ 0 ≤ y ∧ y < H) ∨
  (z = 1 ∧ 0 ≤ x ∧ x < W ∧ 0 ≤ y ∧ y ≤ H)

instance (W H x y z : ℤ) : Decidable (edge3dInRange W H x y z) := by
  unfold edge3dInRange; infer_instance

/-- C7: for every in-range edge index triple (x, y, z) the round trip
edge_1d_to_3d_index (edge_3d_to_1d_index (x, y, z)) returns exactly
(x, y, z). -/
theorem edge_index_roundtrip (W H x y z : ℤ)
    (h : edge3dInRange W H x y z) :
    edge_1d_to_3d_index W H (edge_3d_to_1d_index W H x y z) = (x, y, z) := by
  rcases h with ⟨hz, hx0, hxW, hy0, hyH⟩ | ⟨hz, hx0, hxW, hy0, hyH⟩
  · subst hz
    have hH : 0 < H := lt_of_le_of_lt hy0 hyH
    have hb : ¬ (x < 0 ∨ x > W ∨ y < 0 ∨ y ≥ H) := by push_neg; exact ⟨hx0, hxW, hy0, hyH⟩
    have hlt : x * H + y < H * (W + 1) := by
      have h1 : x * H ≤ W * H := mul_le_mul_of_nonneg_right hxW (le_of_lt hH)
      nlinarith
    unfold edge_3d_to_1d_index edge_1d_to_3d_index
    simp only [if_pos rfl, if_neg hb, if_true, if_pos hlt]
    rw [fdiv_mul_add hH hy0 hyH, fmod_mul_add hH hy0 hyH]
  · subst hz
    have hH : 0 ≤ H := le_trans hy0 hyH
    have hb : ¬ (x < 0 ∨ x ≥ W ∨ y < 0 ∨ y > H) := by push_neg; exact ⟨hx0, hxW, hy0, hyH⟩
    have hge : ¬ (H * (W + 1) + x * (H + 1) + y < H * (W + 1)) := by
      have h1 : 0 ≤ x * (H + 1) := mul_nonneg hx0 (by omega)
      omega
    unfold edge_3d_to_1d_index edge_1d_to_3d_index
    have hz01 : (1 : ℤ) ≠ 0 := by norm_num
    simp only [if_neg hz01, if_pos rfl, if_neg hb, if_true, if_neg hge]
    have harg : H * (W + 1) + x * (H + 1) + y - H * (W + 1) = x * (H + 1) + y := by ring
    rw [harg, fdiv_mul_add (by omega) hy0 (by omega), fmod_mul_add (by omega) hy0 (by omega)]

/-- Witness for edge_index_roundtrip applied to the concrete in-range
triples (1, 1, 0) and (1, 2, 1) of a 3 × 2 grid. -/
theorem edge_index_roundtrip_witness :
    edge_1d_to_3d_index 3 2 (edge_3d_to_1d_index 3 2 1 1 0) = (1, 1, 0) ∧
    edge_1d_to_3d_index 3 2 (edge_3d_to_1d_index 3 2 1 2 1) = (1, 2, 1) :=
  ⟨edge_index_roundtrip 3 2 1 1 0 (by decide),
   edge_index_roundtrip 3 2 1 2 1 (by decide)⟩

/-- C8 counterexample: the claim demands the sentinel -1 for every
out-of-range triple including any z, but for z = 2 (which denotes no edge
of a 2 × 2 grid) edge_3d_to_1d_index returns its initial value 0, not -1. -/
theorem edge_3d_to_1d_out_of_range_counterexample :
    edge_3d_to_1d_index 2 2 0 0 2 = 0 ∧ edge_3d_to_1d_index 2 2 0 0 2 ≠ -1 := by
  constructor <;> decide

/-- C8 amended: for z = 0 or z = 1 every out-of-range (x, y) yields the
sentinel -1, and every in-range triple yields a non-negative flat index;
for any other z the function returns its initial value 0. -/
theorem edge_3d_to_1d_bounds (W H x y z : ℤ) :
    (z = 0 → (x < 0 ∨ x > W ∨ y < 0 ∨ y ≥ H) → edge_3d_to_1d_index W H x y z = -1) ∧
    (z = 1 → (x < 0 ∨ x ≥ W ∨ y < 0 ∨ y > H) → edge_3d_to_1d_index W H x y z = -1) ∧
    (edge3dInRange W H x y z → 0 ≤ edge_3d_to_1d_index W H x y z) ∧
    (z ≠ 0 → z ≠ 1 → edge_3d_to_1d_index W H x y z = 0) := by
  refine ⟨?_, ?_, ?_, ?_⟩
  · intro hz hoob; subst hz; simp only [edge_3d_to_1d_index, if_pos rfl, if_pos hoob, if_true]
  · intro hz hoob; subst hz
    have hz01 : (1 : ℤ) ≠ 0 := by norm_num
    simp only [edge_3d_to_1d_index, if_neg hz01, if_pos rfl, if_pos hoob, if_true]
  · intro h
    rcases h with ⟨hz, hx0, hxW, hy0, hyH⟩ | ⟨hz, hx0, hxW, hy0, hyH⟩
    · subst hz
      have hb : ¬ (x < 0 ∨ x > W ∨ y < 0 ∨ y ≥ H) := by push_neg; exact ⟨hx0, hxW, hy0, hyH⟩
      simp only [edge_3d_to_1d_index, if_pos rfl, if_neg hb, if_true]
      have : 0 ≤ x * H := mul_nonneg hx0 (le_trans hy0 (le_of_lt hyH))
      omega
    · subst hz
      have hb : ¬ (x < 0 ∨ x ≥ W ∨ y < 0 ∨ y > H) := by push_neg; exact ⟨hx0, hxW, hy0, hyH⟩
      have hz01 : (1 : ℤ) ≠ 0 := by norm_num
      simp only [edge_3d_to_1d_index, if_neg hz01, if_pos rfl, if_neg hb, if_true]
      have h1 : 0 ≤ x * (H + 1) := mul_nonneg hx0 (by omega)
      have h2 : 0 ≤ H * (W + 1) := mul_nonneg (le_trans hy0 hyH) (by omega)
      omega
  · intro h0 h1; simp only [edge_3d_to_1d_index, if_neg h0, if_neg h1]

/-- Witness for edge_3d_to_1d_bounds at concrete inputs: the out-of-range
horizontal triple (3, 0, 0) of a 2 × 2 grid maps to -1, and the in-range
triple (1, 1, 0) maps to a non-negative index. -/
theorem edge_3d_to_1d_bounds_witness :
    edge_3d_to_1d_index 2 2 3 0 0 = -1 ∧ 0 ≤ edge_3d_to_1d_index 2 2 1 1 0 :=
  ⟨(edge_3d_to_1d_bounds 2 2 3 0 0).1 rfl (by decide),
   (edge_3d_to_1d_bounds 2 2 1 1 0).2.2.1 (by decide)⟩

/-! ## Binarization (src/cglib/graph.py, compute_binary_grid)

A machine float is modelled as Option ℚ: some q is an ordinary value, none
is NaN.  ti.math.sign is the GLSL-style sign, computable as
(x > 0) - (x < 0); every comparison against NaN is false, so sign of NaN
is 0. -/

/-- GLSL/Taichi sign of a float (NaN = none; NaN compares false, giving 0). -/
def tiSign (v : Option ℚ) : ℤ :=
  match v with
  | none => 0
  | some q => if q < 0 then -1 else if q = 0 then 0 else 1

/-- Embedding of the per-sample body of compute_binary_grid: 0 when the
sign is -1, 1 when the sign is 0, 1 otherwise. -/
def compute_binary_grid_val (v : Option ℚ) : ℤ :=
  if tiSign v = -1 then 0 else if tiSign v = 0 then 1 else 1

/-- Embedding of the compute_binary_grid kernel: every sample of the
binary grid is the binarization of the sample of the scalar grid with the
same coordinates. -/
def compute_binary_grid (grid : ℤ → ℤ → Option ℚ) (x y : ℤ) : ℤ :=
  compute_binary_grid_val (grid x y)

/-- C9: binarization maps every sample independently to 0 when the sample
is strictly negative and to 1 otherwise, and a NaN sample (none) is mapped
to 1. -/
theorem compute_binary_grid_spec (grid : ℤ → ℤ → Option ℚ) (x y : ℤ) :
    compute_binary_grid grid x y =
      (match grid x y with
       | none => 1
       | some q => if q < 0 then 0 else 1) := by
  unfold compute_binary_grid compute_binary_grid_val tiSign
  rcases grid x y with _ | q
  · norm_num
  · by_cases h0 : q < 0
    · simp [h0]
    · by_cases h1 : q = 0 <;> simp [h0, h1]

/-! ## Adjacency (src/cglib/graph.py, compute_adajcency)

The next_edge and previous_edge fields are total functions ℤ → ℤ, filled
with the sentinel -1 by to_graph before the kernel runs.  The kernel's two
serialized loops become a fold over the row-major cell list.  The main
pipeline is developed for NaN-free grids, so a scalar grid is ℤ → ℤ → ℚ
here; its binary grid is compute_binary_grid of the NaN-free lift. -/

/-- The pair of adjacency fields mutated by compute_adajcency. -/
structure Adj where
  next : ℤ → ℤ
  prev : ℤ → ℤ

/-- Both adjacency fields after to_graph's fill(-1). -/
def initAdj : Adj := ⟨fun _ => -1, fun _ => -1⟩

/-- One directed contour edge written by a marching-squares case:
next_edge[e] = f and previous_edge[f] = e. -/
def pairWrite (s : Adj) (e f : ℤ) : Adj :=
  ⟨Function.update s.next e f, Function.update s.prev f e⟩

/-- One iteration of the case-0/15 loop: next_edge[e] = -1 and
previous_edge[e] = -1. -/
def killEdge (s : Adj) (e : ℤ) : Adj :=
  ⟨Function.update s.next e (-1), Function.update s.prev e (-1)⟩

/-- Binary grid of a NaN-free scalar grid. -/
def bgrid (g : ℤ → ℤ → ℚ) (x y : ℤ) : ℤ :=
  compute_binary_grid (fun a b => some (g a b)) x y

/-- The 4-bit marching-squares configuration of cell (x, y), in the
code's corner order. -/
def cellCfg (g : ℤ → ℤ → ℚ) (x y : ℤ) : ℤ :=
  1 * bgrid g x y + 2 * bgrid g x (y + 1) +
    4 * bgrid g (x + 1) (y + 1) + 8 * bgrid g (x + 1) y

/-- Average of the four corner values of cell (x, y), used to resolve the
ambiguous configurations 5 and 10. -/
def cellAvg (g : ℤ → ℤ → ℚ) (x y : ℤ) : ℚ :=
  (g x y + g x (y + 1) + g (x + 1) (y + 1) + g (x + 1) y) / 4

/-- Body of the compute_adajcency double loop for one cell, mirroring the
border guard and the case dispatch of the code.  The components of
index2d_to_edge_index are, in order: top, right, bottom, left. -/
def adjCell (W H : ℤ) (g : ℤ → ℤ → ℚ) (s : Adj) (c : ℤ × ℤ) : Adj :=
  if c.1 ≠ W - 1 ∧ c.2 ≠ H - 1 then
    let e := index2d_to_edge_index W H c.1 c.2
    let cfg := cellCfg g c.1 c.2
    if cfg = 0 ∨ cfg = 15 then
      killEdge (killEdge (killEdge (killEdge s e.1) e.2.1) e.2.2.1) e.2.2.2
    else if cfg = 1 then pairWrite s e.1 e.2.2.2
    else if cfg = 2 then pairWrite s e.2.1 e.1
    else if cfg = 3 then pairWrite s e.2.1 e.2.2.2
    else if cfg = 4 then pairWrite s e.2.2.1 e.2.1
    else if cfg = 5 then
      if cellAvg g c.1 c.2 > 0 then pairWrite (pairWrite s e.1 e.2.1) e.2.2.1 e.2.2.2
      else pairWrite (pairWrite s e.1 e.2.2.2) e.2.2.1 e.2.1
    else if cfg = 6 then pairWrite s e.2.2.1 e.1
    else if cfg = 7 then pairWrite s e.2.2.1 e.2.2.2
    else if cfg = 8 then pairWrite s e.2.2.2 e.2.2.1
    else if cfg = 9 then pairWrite s e.1 e.2.2.1
    else if cfg = 10 then
      if cellAvg g c.1 c.2 < 0 then pairWrite (pairWrite s e.2.1 e.1) e.2.2.2 e.2.2.1
      else pairWrite (pairWrite s e.2.2.2 e.1) e.2.1 e.2.2.1
    else if cfg = 11 then pairWrite s e.2.1 e.2.2.1
    else if cfg = 12 then pairWrite s e.2.2.2 e.2.1
    else if cfg = 13 then pairWrite s e.1 e.2.1
    else if cfg = 14 then pairWrite s e.2.2.2 e.1
    else s
  else s

/-- The row-major cell list of the kernel's serialized double loop. -/
def cellsList (W H : ℕ) : List (ℤ × ℤ) :=
  (List.range W).flatMap (fun x => (List.range H).map (fun y => (Int.ofNat x, Int.ofNat y)))

/-- Embedding of the compute_adajcency kernel. -/
def compute_adajcency (W H : ℕ) (g : ℤ → ℤ → ℚ) (s : Adj) : Adj :=
  (cellsList W H).foldl (adjCell W H g) s

/-- The adjacency fields produced by to_graph: fill with -1, then run
compute_adajcency. -/
def to_graph_adj (W H : ℕ) (g : ℤ → ℤ → ℚ) : Adj :=
  compute_adajcency W H g initAdj

lemma edge_index_components (W H x y : ℤ) :
    index2d_to_edge_index W H x y =
      (hIdx H x y, vIdx W H x (y + 1), hIdx H (x + 1) y, vIdx W H x y) := by
  simp only [index2d_to_edge_index, hIdx, vIdx, Prod.mk.injEq, true_and, and_true,
    and_self_iff]
  ring

lemma bgrid_cases (g : ℤ → ℤ → ℚ) (x y : ℤ) : bgrid g x y = 0 ∨ bgrid g x y = 1 := by
  unfold bgrid compute_binary_grid compute_binary_grid_val
  split
  · left; rfl
  · split
    · right; rfl
    · right; rfl

/-! ## The marching-squares case table (claims C1 and C3) -/

/-- C3: for an in-range cell, configurations 0 and 15 mark all four cell
edges NONE, and each configuration in 1-4, 6-9, 11-14 sets exactly one
directed next pointer among the cell's edges, with prev set symmetrically,
following the table 1: top→left, 2: right→top, 3: right→left,
4: bottom→right, 6: bottom→top, 7: bottom→left, 8: left→bottom,
9: top→bottom, 11: right→bottom, 12: left→right, 13: top→right,
14: left→top. -/
theorem marching_squares_table (g : ℤ → ℤ → ℚ) (W H x y : ℤ) (s : Adj)
    (hx0 : 0 ≤ x) (hxW : x ≤ W - 2) (hy0 : 0 ≤ y) (hyH : y ≤ H - 2) :
    ((cellCfg g x y = 0 ∨ cellCfg g x y = 15) →
      ∀ ee, (ee = hIdx H x y ∨ ee = vIdx W H x (y + 1) ∨
             ee = hIdx H (x + 1) y ∨ ee = vIdx W H x y) →
        (adjCell W H g s (x, y)).next ee = -1 ∧ (adjCell W H g s (x, y)).prev ee = -1) ∧
    (cellCfg g x y = 1 →
      adjCell W H g s (x, y) = pairWrite s (hIdx H x y) (vIdx W H x y)) ∧
    (cellCfg g x y = 2 →
      adjCell W H g s (x, y) = pairWrite s (vIdx W H x (y + 1)) (hIdx H x y)) ∧
    (cellCfg g x y = 3 →
      adjCell W H g s (x, y) = pairWrite s (vIdx W H x (y + 1)) (vIdx W H x y)) ∧
    (cellCfg g x y = 4 →
      adjCell W H g s (x, y) = pairWrite s (hIdx H (x + 1) y) (vIdx W H x (y + 1))) ∧
    (cellCfg g x y = 6 →
      adjCell W H g s (x, y) = pairWrite s (hIdx H (x + 1) y) (hIdx H x y)) ∧
    (cellCfg g x y = 7 →
      adjCell W H g s (x, y) = pairWrite s (hIdx H (x + 1) y) (vIdx W H x y)) ∧
    (cellCfg g x y = 8 →
      adjCell W H g s (x, y) = pairWrite s (vIdx W H x y) (hIdx H (x + 1) y)) ∧
    (cellCfg g x y = 9 →
      adjCell W H g s (x, y) = pairWrite s (hIdx H x y) (hIdx H (x + 1) y)) ∧
    (cellCfg g x y = 11 →
      adjCell W H g s (x, y) = pairWrite s (vIdx W H x (y + 1)) (hIdx H (x + 1) y)) ∧
    (cellCfg g x y = 12 →
      adjCell W H g s (x, y) = pairWrite s (vIdx W H x y) (vIdx W H x (y + 1))) ∧
    (cellCfg g x y = 13 →
      adjCell W H g s (x, y) = pairWrite s (hIdx H x y) (vIdx W H x (y + 1))) ∧
    (cellCfg g x y = 14 →
      adjCell W H g s (x, y) = pairWrite s (vIdx W H x y) (hIdx H x y)) := by
  have hg : ((x, y).1 ≠ W - 1 ∧ (x, y).2 ≠ H - 1) := by constructor <;> simp <;> omega
  refine ⟨?_, ?_, ?_, ?_, ?_, ?_, ?_, ?_, ?_, ?_, ?_, ?_, ?_⟩
  · intro hc ee hee
    have h015 : cellCfg g (x, y).1 (x, y).2 = 0 ∨ cellCfg g (x, y).1 (x, y).2 = 15 := hc
    simp only [adjCell, if_pos hg, if_pos h015]
    simp only [killEdge, edge_index_components, Function.update_apply]
    constructor <;> rcases hee with h | h | h | h <;> subst h <;> split_ifs <;> simp_all
  all_goals
    intro hc
    simp only [adjCell, if_pos hg]
    rw [show ((x, y).1 : ℤ) = x from rfl, show ((x, y).2 : ℤ) = y from rfl] at *
    rw [edge_index_components]
    simp only [hc]
    norm_num

/-- Witness for marching_squares_table: the 2 × 2 grid with a single
positive sample at (0, 0) gives cell (0, 0) configuration 1, and the cell
writes next_edge[top] = left, previous_edge[left] = top. -/
theorem marching_squares_table_witness :
    adjCell 2 2 (fun x y => if x = 0 ∧ y = 0 then 1 else -1) initAdj (0, 0) =
      pairWrite initAdj 0 6 :=
  (marching_squares_table (fun x y => if x = 0 ∧ y = 0 then 1 else -1)
    2 2 0 0 initAdj (by norm_num) (by norm_num) (by norm_num) (by norm_num)).2.1
    (by decide)

/-- The corner-average rule exactly as the claim (and spec.md section
4.3c) states it, rendered on the embedding: for configuration 5, avg > 0
gives top→right and bottom→left, otherwise top→left and bottom→right; for
configuration 10, avg < 0 gives left→top and right→bottom, otherwise
left→bottom and right→top. -/
def saddle_claim_rule (g : ℤ → ℤ → ℚ) (W H x y : ℤ) : Prop :=
  (cellCfg g x y = 5 →
    (cellAvg g x y > 0 →
      (adjCell W H g initAdj (x, y)).next (hIdx H x y) = vIdx W H x (y + 1) ∧
      (adjCell W H g initAdj (x, y)).next (hIdx H (x + 1) y) = vIdx W H x y) ∧
    (¬ cellAvg g x y > 0 →
      (adjCell W H g initAdj (x, y)).next (hIdx H x y) = vIdx W H x y ∧
      (adjCell W H g initAdj (x, y)).next (hIdx H (x + 1) y) = vIdx W H x (y + 1))) ∧
  (cellCfg g x y = 10 →
    (cellAvg g x y < 0 →
      (adjCell W H g initAdj (x, y)).next (vIdx W H x y) = hIdx H x y ∧
      (adjCell W H g initAdj (x, y)).next (vIdx W H x (y + 1)) = hIdx H (x + 1) y) ∧
    (¬ cellAvg g x y < 0 →
      (adjCell W H g initAdj (x, y)).next (vIdx W H x y) = hIdx H (x + 1) y ∧
      (adjCell W H g initAdj (x, y)).next (vIdx W H x (y + 1)) = hIdx H x y))

instance (g : ℤ → ℤ → ℚ) (W H x y : ℤ) : Decidable (saddle_claim_rule g W H x y) := by
  unfold saddle_claim_rule; infer_instance

/-- The concrete 2 × 2 grid (-4, 1; 1, -1): cell (0, 0) has
configuration 10 and corner average -3/4 < 0. -/
def gSaddle : ℤ → ℤ → ℚ := fun x y =>
  if x = 0 ∧ y = 0 then -4
  else if x = 0 ∧ y = 1 then 1
  else if x = 1 ∧ y = 1 then -1
  else if x = 1 ∧ y = 0 then 1
  else 0

lemma gSaddle_cfg : cellCfg gSaddle 0 0 = 10 := by decide

lemma gSaddle_avg : cellAvg gSaddle 0 0 < 0 := by
  unfold cellAvg gSaddle
  norm_num

/-- C1 amended: for configuration 5 the claim's rule is what the code
implements (avg > 0: top→right and bottom→left, else top→left and
bottom→right), but for configuration 10 the two branches are the mirror
image of the claim: avg < 0 gives right→top and left→bottom, otherwise
left→top and right→bottom; prev pointers are set symmetrically (the
pairWrite form records both directions). -/
theorem saddle_rule_code (g : ℤ → ℤ → ℚ) (W H x y : ℤ) (s : Adj)
    (hx0 : 0 ≤ x) (hxW : x ≤ W - 2) (hy0 : 0 ≤ y) (hyH : y ≤ H - 2) :
    (cellCfg g x y = 5 → cellAvg g x y > 0 →
      adjCell W H g s (x, y) =
        pairWrite (pairWrite s (hIdx H x y) (vIdx W H x (y + 1)))
          (hIdx H (x + 1) y) (vIdx W H x y)) ∧
    (cellCfg g x y = 5 → ¬ cellAvg g x y > 0 →
      adjCell W H g s (x, y) =
        pairWrite (pairWrite s (hIdx H x y) (vIdx W H x y))
          (hIdx H (x + 1) y) (vIdx W H x (y + 1))) ∧
    (cellCfg g x y = 10 → cellAvg g x y < 0 →
      adjCell W H g s (x, y) =
        pairWrite (pairWrite s (vIdx W H x (y + 1)) (hIdx H x y))
          (vIdx W H x y) (hIdx H (x + 1) y)) ∧
    (cellCfg g x y = 10 → ¬ cellAvg g x y < 0 →
      adjCell W H g s (x, y) =
        pairWrite (pairWrite s (vIdx W H x y) (hIdx H x y))
          (vIdx W H x (y + 1)) (hIdx H (x + 1) y)) := by
  have hg : ((x, y).1 ≠ W - 1 ∧ (x, y).2 ≠ H - 1) := by constructor <;> simp <;> omega
  refine ⟨?_, ?_, ?_, ?_⟩ <;>
    · intro hc ha
      simp only [adjCell, if_pos hg]
      rw [show ((x, y).1 : ℤ) = x from rfl, show ((x, y).2 : ℤ) = y from rfl] at *
      rw [edge_index_components]
      simp only [hc, ha]
      norm_num
      all_goals first
        | rfl
        | (rw [if_pos ha]; rfl)
        | (rw [if_neg ha]; rfl)

/-- Witness for saddle_rule_code on gSaddle at cell (0, 0): configuration
10 with negative average splices right→top and left→bottom. -/
theorem saddle_rule_code_witness :
    adjCell 2 2 gSaddle initAdj (0, 0) =
      pairWrite (pairWrite initAdj 7 0) 6 2 := by
  have h := (saddle_rule_code gSaddle 2 2 0 0 initAdj (by norm_num) (by norm_num)
      (by norm_num) (by norm_num)).2.2.1 gSaddle_cfg gSaddle_avg
  rw [h]
  norm_num [hIdx, vIdx]

/-- C1 counterexample: on gSaddle, cell (0, 0) has configuration 10 with
corner average -3/4 < 0, but the code splices right→top and left→bottom,
not the left→top and right→bottom the claim prescribes, so the claimed
rule fails at this input. -/
theorem saddle_claim_rule_counterexample :
    cellCfg gSaddle 0 0 = 10 ∧ cellAvg gSaddle 0 0 < 0 ∧
    ¬ saddle_claim_rule gSaddle 2 2 0 0 := by
  refine ⟨gSaddle_cfg, gSaddle_avg, ?_⟩
  intro h
  have h10 := (h.2 gSaddle_cfg).1 gSaddle_avg
  have hstate := (saddle_rule_code gSaddle 2 2 0 0 initAdj (by norm_num) (by norm_num)
      (by norm_num) (by norm_num)).2.2.1 gSaddle_cfg gSaddle_avg
  rw [hstate] at h10
  revert h10
  norm_num [pairWrite, initAdj, hIdx, vIdx, Function.update_apply]

/-! ## Array-access safety (claim C10)

browse_grid (graph.py lines 306-328) computes the cell configuration
before its border check, so its binary_grid read set is the four corners
of every cell of the loop, while compute_adajcency (lines 144-264) guards
first.  compute_neighbours_energies (calc.py lines 229-281) scans a
5 × 5 × 2 neighborhood in 3d-index space and indexes cycle_index,
next_edge and points at whatever flat index edge_3d_to_1d_index returns,
including the sentinel -1. -/

/-- The four binary_grid sample reads of one configuration computation. -/
def cfgReads (c : ℤ × ℤ) : List (ℤ × ℤ) :=
  [(c.1, c.2), (c.1, c.2 + 1), (c.1 + 1, c.2 + 1), (c.1 + 1, c.2)]

/-- binary_grid reads performed by browse_grid when computing cell
configurations: the configuration is computed for every cell of the loop,
before the border check. -/
def browse_grid_cfg_reads (W H : ℕ) : List (ℤ × ℤ) :=
  (cellsList W H).flatMap cfgReads

/-- binary_grid reads performed by compute_adajcency when computing cell
configurations: the border check precedes the configuration computation. -/
def compute_adajcency_cfg_reads (W H : ℕ) : List (ℤ × ℤ) :=
  ((cellsList W H).filter (fun c => c.1 != (W : ℤ) - 1 && c.2 != (H : ℤ) - 1)).flatMap cfgReads

/-- In-bounds sample indices of a W × H grid. -/
def inBounds (W H : ℕ) (p : ℤ × ℤ) : Prop :=
  0 ≤ p.1 ∧ p.1 < (W : ℤ) ∧ 0 ≤ p.2 ∧ p.2 < (H : ℤ)

instance (W H : ℕ) (p : ℤ × ℤ) : Decidable (inBounds W H p) := by
  unfold inBounds; infer_instance

/-- The 5 × 5 × 2 offset grid of compute_neighbours_energies, in the
code's serialized scan order (x outermost, then y, then z). -/
def scanOffsets : List (ℤ × ℤ × ℤ) :=
  (List.range 5).flatMap fun xi =>
    (List.range 5).flatMap fun yi =>
      (List.range 2).map fun zi => (Int.ofNat xi, Int.ofNat yi, Int.ofNat zi)

/-- The flat indices at which compute_neighbours_energies indexes
cycle_index (and next_edge and points for surviving candidates) when the
reference edge has 3d index e3. -/
def neighbour_scan_indices (W H : ℕ) (e3 : ℤ × ℤ × ℤ) : List ℤ :=
  scanOffsets.map fun o =>
    edge_3d_to_1d_index W H (e3.1 + o.1 - 2) (e3.2.1 + o.2.1 - 2) o.2.2

/-- The edge_fields_shape of to_graph: W·(H+1) + H·(W+1) - 1, the common
length of points, previous_edge, next_edge, cycle_index and energies. -/
def edge_field_shape (W H : ℕ) : ℤ :=
  (W : ℤ) * ((H : ℤ) + 1) + (H : ℤ) * ((W : ℤ) + 1) - 1

lemma mem_cellsList {W H : ℕ} {c : ℤ × ℤ} :
    c ∈ cellsList W H ↔ 0 ≤ c.1 ∧ c.1 < (W : ℤ) ∧ 0 ≤ c.2 ∧ c.2 < (H : ℤ) := by
  unfold cellsList
  rw [List.mem_flatMap]
  constructor
  · rintro ⟨a, ha, hmem⟩
    rw [List.mem_map] at hmem
    obtain ⟨b, hb, heq⟩ := hmem
    rw [List.mem_range] at ha hb
    subst heq
    dsimp only
    simp only [Int.ofNat_eq_coe]
    omega
  · intro h
    refine ⟨c.1.toNat, ?_, ?_⟩
    · rw [List.mem_range]; omega
    · rw [List.mem_map]
      refine ⟨c.2.toNat, ?_, ?_⟩
      · rw [List.mem_range]; omega
      · simp only [Int.ofNat_eq_coe]
        have e1 : ((c.1.toNat : ℤ)) = c.1 := Int.toNat_of_nonneg h.1
        have e2 : ((c.2.toNat : ℤ)) = c.2 := Int.toNat_of_nonneg h.2.2.1
        rw [e1, e2]

lemma mem_scanOffsets {o : ℤ × ℤ × ℤ} (ho : o ∈ scanOffsets) :
    0 ≤ o.1 ∧ o.1 ≤ 4 ∧ 0 ≤ o.2.1 ∧ o.2.1 ≤ 4 ∧ (o.2.2 = 0 ∨ o.2.2 = 1) := by
  unfold scanOffsets at ho
  rw [List.mem_flatMap] at ho
  obtain ⟨xi, hxi, ho⟩ := ho
  rw [List.mem_flatMap] at ho
  obtain ⟨yi, hyi, ho⟩ := ho
  rw [List.mem_map] at ho
  obtain ⟨zi, hzi, heq⟩ := ho
  rw [List.mem_range] at hxi hyi hzi
  subst heq
  dsimp only
  simp only [Int.ofNat_eq_coe]
  omega

/-- C10 counterexample: browse_grid's configuration computation for cell
(1, 0) of a 2 × 2 grid reads binary_grid at the out-of-bounds sample
(2, 1); the localized candidate search around edge 0 of a 4 × 4 grid
indexes the edge arrays at the out-of-range flat index -1; and the scan
around edge 14 (3d index (3, 2, 0)) of the same grid attains the flat
index edge_field_shape 4 4 = 39 itself, one past the arrays, whose valid
indices are [0, edge_field_shape). -/
theorem core_access_counterexample :
    ((2 : ℤ), (1 : ℤ)) ∈ browse_grid_cfg_reads 2 2 ∧
    ¬ inBounds 2 2 ((2 : ℤ), (1 : ℤ)) ∧
    (-1 : ℤ) ∈ neighbour_scan_indices 4 4 (edge_1d_to_3d_index 4 4 0) ∧
    edge_field_shape 4 4 ∈ neighbour_scan_indices 4 4 (edge_1d_to_3d_index 4 4 14) := by
  refine ⟨by decide, by decide, by decide, by decide⟩

/-- C10 amended: compute_adajcency's configuration computation reads
binary_grid only at in-bounds samples (its border guard comes first), and
every flat index produced by the localized search's 5 × 5 × 2 scan is
either the sentinel -1 or lies in [0, E] where E = edge_field_shape;
browse_grid, by contrast, reads out-of-bounds samples (see the
counterexample), and -1 (as well as E itself, one past the arrays) does
escape the valid array range [0, E). -/
theorem core_access_bounds (W H : ℕ) :
    (∀ p ∈ compute_adajcency_cfg_reads W H, inBounds W H p) ∧
    (∀ e3 : ℤ × ℤ × ℤ, ∀ i ∈ neighbour_scan_indices W H e3,
      i = -1 ∨ (0 ≤ i ∧ i ≤ edge_field_shape W H)) := by
  constructor
  · intro p hp
    unfold compute_adajcency_cfg_reads at hp
    rw [List.mem_flatMap] at hp
    obtain ⟨c, hc, hpc⟩ := hp
    rw [List.mem_filter] at hc
    obtain ⟨hcell, hguard⟩ := hc
    rw [mem_cellsList] at hcell
    simp only [Bool.and_eq_true, bne_iff_ne] at hguard
    unfold cfgReads at hpc
    unfold inBounds
    simp only [List.mem_cons, List.not_mem_nil, or_false] at hpc
    rcases hpc with h | h | h | h <;> subst h <;> dsimp only <;> omega
  · intro e3 i hi
    unfold neighbour_scan_indices at hi
    rw [List.mem_map] at hi
    obtain ⟨o, ho, hio⟩ := hi
    have hz : o.2.2 = 0 ∨ o.2.2 = 1 := (mem_scanOffsets ho).2.2.2.2
    set a := e3.1 + o.1 - 2 with ha
    set b := e3.2.1 + o.2.1 - 2 with hb
    have hH : (0 : ℤ) ≤ H := by positivity
    have hW : (0 : ℤ) ≤ W := by positivity
    have hE : edge_field_shape W H =
        2 * ((W : ℤ) * (H : ℤ)) + (W : ℤ) + (H : ℤ) - 1 := by
      unfold edge_field_shape; ring
    rcases hz with hz | hz
    · rw [← hio]
      unfold edge_3d_to_1d_index
      rw [if_pos hz]
      by_cases hoob : a < 0 ∨ a > (W : ℤ) ∨ b < 0 ∨ b ≥ (H : ℤ)
      · rw [if_pos hoob]; left; rfl
      · rw [if_neg hoob]; right
        push_neg at hoob
        obtain ⟨h1, h2, h3, h4⟩ := hoob
        have p1 : 0 ≤ a * (H : ℤ) := mul_nonneg h1 hH
        have p2 : a * (H : ℤ) ≤ (W : ℤ) * (H : ℤ) := mul_le_mul_of_nonneg_right h2 hH
        have p4 : 0 ≤ (W : ℤ) * (H : ℤ) := mul_nonneg hW hH
        rw [hE]
        constructor
        · linarith
        · linarith
    · rw [← hio]
      unfold edge_3d_to_1d_index
      have hz0 : o.2.2 ≠ 0 := by omega
      rw [if_neg hz0, if_pos hz]
      by_cases hoob : a < 0 ∨ a ≥ (W : ℤ) ∨ b < 0 ∨ b > (H : ℤ)
      · rw [if_pos hoob]; left; rfl
      · rw [if_neg hoob]; right
        push_neg at hoob
        obtain ⟨h1, h2, h3, h4⟩ := hoob
        have p1 : 0 ≤ a * ((H : ℤ) + 1) := mul_nonneg h1 (by omega)
        have p2 : a * ((H : ℤ) + 1) ≤ ((W : ℤ) - 1) * ((H : ℤ) + 1) :=
          mul_le_mul_of_nonneg_right (by omega) (by omega)
        have p3 : 0 ≤ (H : ℤ) * ((W : ℤ) + 1) := mul_nonneg hH (by omega)
        have q1 : ((W : ℤ) - 1) * ((H : ℤ) + 1) =
            (W : ℤ) * (H : ℤ) + (W : ℤ) - (H : ℤ) - 1 := by ring
        have q2 : (H : ℤ) * ((W : ℤ) + 1) = (W : ℤ) * (H : ℤ) + (H : ℤ) := by ring
        have p4 : 0 ≤ (W : ℤ) * (H : ℤ) := mul_nonneg hW hH
        rw [hE]
        constructor
        · linarith
        · linarith

/-- Witness for core_access_bounds on a 4 × 4 grid: the configuration
read (1, 1) of compute_adajcency is in bounds, and the scan index 5
around edge 0 is in the stated range. -/
theorem core_access_bounds_witness :
    inBounds 4 4 ((1 : ℤ), (1 : ℤ)) ∧
    ((5 : ℤ) = -1 ∨ (0 ≤ (5 : ℤ) ∧ (5 : ℤ) ≤ edge_field_shape 4 4)) :=
  ⟨(core_access_bounds 4 4).1 ((1 : ℤ), (1 : ℤ)) (by decide),
   (core_access_bounds 4 4).2 (edge_1d_to_3d_index 4 4 0) 5 (by decide)⟩

/-! ## Slot ownership for compute_adajcency

For the pair invariant P1 we track, for every next_edge and previous_edge
slot, which cell may write it.  Inspecting the sixteen cases of the
dispatch shows that a cell writes next_edge of one of its edges exactly
when the edge's two endpoint binary values follow a fixed directional
pattern, so at most one of the two cells sharing an edge ever writes each
slot.  previous_edge ownership is the same pattern on the complemented
binary grid. -/

/-- Cells that pass both the loop range and the border guard. -/
def cellOK (W H x y : ℤ) : Prop :=
  0 ≤ x ∧ x ≤ W - 2 ∧ 0 ≤ y ∧ y ≤ H - 2

/-- Cell C writes the next_edge slot of edge e, for a binary grid β: the
edge is one of C's four edges and its endpoint values follow the
directional pattern of the case table. -/
def ownsN (W H : ℤ) (β : ℤ → ℤ → ℤ) (C : ℤ × ℤ) (e : ℤ) : Prop :=
  cellOK W H C.1 C.2 ∧
  ((e = hIdx H C.1 C.2 ∧ β C.1 C.2 = 1 ∧ β C.1 (C.2 + 1) = 0) ∨
   (e = hIdx H (C.1 + 1) C.2 ∧ β (C.1 + 1) (C.2 + 1) = 1 ∧ β (C.1 + 1) C.2 = 0) ∨
   (e = vIdx W H C.1 C.2 ∧ β (C.1 + 1) C.2 = 1 ∧ β C.1 C.2 = 0) ∨
   (e = vIdx W H C.1 (C.2 + 1) ∧ β C.1 (C.2 + 1) = 1 ∧ β (C.1 + 1) (C.2 + 1) = 0))

/-- The complemented binary grid, used for previous_edge ownership. -/
def bcompl (β : ℤ → ℤ → ℤ) : ℤ → ℤ → ℤ := fun x y => 1 - β x y

lemma decomp_inj {p q r t M : ℤ} (hM : 0 < M) (hq0 : 0 ≤ q) (hqM : q < M)
    (ht0 : 0 ≤ t) (htM : t < M) (he : p * M + q = r * M + t) : p = r ∧ q = t := by
  have hp : p = r := by
    by_contra hne
    rcases lt_or_gt_of_ne hne with hlt | hgt
    · have h1 : p + 1 ≤ r := hlt
      have h2 : (p + 1) * M ≤ r * M := mul_le_mul_of_nonneg_right h1 (le_of_lt hM)
      have h3 : (p + 1) * M = p * M + M := by ring
      linarith
    · have h1 : r + 1 ≤ p := hgt
      have h2 : (r + 1) * M ≤ p * M := mul_le_mul_of_nonneg_right h1 (le_of_lt hM)
      have h3 : (r + 1) * M = r * M + M := by ring
      linarith
  subst hp
  constructor
  · rfl
  · linarith

lemma hIdx_lt_base {W H p q : ℤ} (hp0 : 0 ≤ p) (hpW : p ≤ W - 1)
    (hq0 : 0 ≤ q) (hqH : q ≤ H - 1) : hIdx H p q < H * (W + 1) := by
  have hH : 0 < H := by omega
  have h1 : p * H ≤ (W - 1) * H := mul_le_mul_of_nonneg_right hpW (le_of_lt hH)
  have h2 : (W - 1) * H = W * H - H := by ring
  have h3 : H * (W + 1) = W * H + H := by ring
  unfold hIdx
  omega

lemma vIdx_ge_base {W H p t : ℤ} (hp0 : 0 ≤ p) (ht0 : 0 ≤ t) (hH : 0 ≤ H) :
    H * (W + 1) ≤ vIdx W H p t := by
  have h1 : 0 ≤ p * (H + 1) := mul_nonneg hp0 (by omega)
  unfold vIdx
  omega

lemma vIdx_decomp {W H p t r u : ℤ} (hH : 0 ≤ H)
    (ht0 : 0 ≤ t) (htH : t ≤ H) (hu0 : 0 ≤ u) (huH : u ≤ H)
    (he : vIdx W H p t = vIdx W H r u) : p = r ∧ t = u := by
  unfold vIdx at he
  exact decomp_inj (M := H + 1) (by omega) ht0 (by omega) hu0 (by omega) (by omega)

lemma hIdx_decomp {H p q r t : ℤ} (hH : 0 < H)
    (hq0 : 0 ≤ q) (hqH : q < H) (ht0 : 0 ≤ t) (htH : t < H)
    (he : hIdx H p q = hIdx H r t) : p = r ∧ q = t := by
  unfold hIdx at he
  exact decomp_inj hH hq0 hqH ht0 htH he

/-- At most one cell owns each next_edge slot (same for previous_edge via
the complement instance). -/
lemma ownsN_unique {W H : ℤ} {β : ℤ → ℤ → ℤ} {C D : ℤ × ℤ} {e : ℤ}
    (hC : ownsN W H β C e) (hD : ownsN W H β D e) : C = D := by
  obtain ⟨x, y⟩ := C
  obtain ⟨r, u⟩ := D
  obtain ⟨hok, hc⟩ := hC
  obtain ⟨hok', hd⟩ := hD
  obtain ⟨hx0, hxW, hy0, hyH⟩ := hok
  obtain ⟨hr0, hrW, hu0, huH⟩ := hok'
  dsimp only at *
  have hH : (0 : ℤ) < H := by omega
  have hvh : ∀ p q a b : ℤ, 0 ≤ p → p ≤ W - 1 → 0 ≤ q → q ≤ H - 1 →
      0 ≤ a → 0 ≤ b → hIdx H p q ≠ vIdx W H a b := by
    intro p q a b h1 h2 h3 h4 h5 h6
    have := hIdx_lt_base h1 h2 h3 h4
    have := vIdx_ge_base (W := W) (H := H) h5 h6 (by omega)
    omega
  rcases hc with ⟨he1, hb1, hb2⟩ | ⟨he1, hb1, hb2⟩ | ⟨he1, hb1, hb2⟩ | ⟨he1, hb1, hb2⟩ <;>
    rcases hd with ⟨he2, hd1, hd2⟩ | ⟨he2, hd1, hd2⟩ | ⟨he2, hd1, hd2⟩ | ⟨he2, hd1, hd2⟩ <;>
      rw [he1] at he2
  · obtain ⟨hpq, hqt⟩ := hIdx_decomp hH hy0 (by omega) hu0 (by omega) he2
    subst hpq; subst hqt; rfl
  · obtain ⟨hpq, hqt⟩ := hIdx_decomp hH hy0 (by omega) hu0 (by omega) he2
    rw [← hpq, ← hqt] at hd1 hd2
    omega
  · exact absurd he2 (hvh x y r u (by omega) (by omega) (by omega) (by omega) hr0 hu0)
  · exact absurd he2 (hvh x y r (u + 1) (by omega) (by omega) (by omega) (by omega) hr0 (by omega))
  · obtain ⟨hpq, hqt⟩ := hIdx_decomp hH hy0 (by omega) hu0 (by omega) he2
    rw [hpq, hqt] at hb1 hb2
    omega
  · obtain ⟨hpq, hqt⟩ := hIdx_decomp hH hy0 (by omega) hu0 (by omega) he2
    have : x = r ∧ y = u := by omega
    obtain ⟨h1, h2⟩ := this
    subst h1; subst h2; rfl
  · exact absurd he2 (hvh (x + 1) y r u (by omega) (by omega) (by omega) (by omega) hr0 hu0)
  · exact absurd he2
      (hvh (x + 1) y r (u + 1) (by omega) (by omega) (by omega) (by omega) hr0 (by omega))
  · exact absurd he2.symm (hvh r u x y hr0 (by omega) hu0 (by omega) hx0 hy0)
  · exact absurd he2.symm (hvh (r + 1) u x y (by omega) (by omega) hu0 (by omega) hx0 hy0)
  · obtain ⟨hpq, hqt⟩ := vIdx_decomp (by omega) hy0 (by omega) hu0 (by omega) he2
    subst hpq; subst hqt; rfl
  · obtain ⟨hpq, hqt⟩ := vIdx_decomp (by omega) hy0 (by omega) (by omega) (by omega) he2
    rw [hpq] at hb1 hb2
    rw [← hqt] at hd1 hd2
    omega
  · exact absurd he2.symm (hvh r u x (y + 1) hr0 (by omega) hu0 (by omega) hx0 (by omega))
  · exact absurd he2.symm
      (hvh (r + 1) u x (y + 1) (by omega) (by omega) hu0 (by omega) hx0 (by omega))
  · obtain ⟨hpq, hqt⟩ := vIdx_decomp (by omega) (by omega) (by omega) hu0 (by omega) he2
    rw [hpq] at hb1 hb2
    rw [hqt] at hb1 hb2
    omega
  · obtain ⟨hpq, hqt⟩ := vIdx_decomp (by omega) (by omega) (by omega) (by omega) (by omega) he2
    have : x = r ∧ y = u := by omega
    obtain ⟨h1, h2⟩ := this
    subst h1; subst h2; rfl

/-- An owned horizontal slot always lies on an edge whose endpoint values
differ. -/
lemma ownsN_h_cross {W H : ℤ} {β : ℤ → ℤ → ℤ} {C : ℤ × ℤ} {p q : ℤ}
    (h : ownsN W H β C (hIdx H p q)) (hp0 : 0 ≤ p) (hpW : p ≤ W - 1)
    (hq0 : 0 ≤ q) (hqH : q ≤ H - 1) : β p q ≠ β p (q + 1) := by
  obtain ⟨x, y⟩ := C
  obtain ⟨hok, hc⟩ := h
  obtain ⟨hx0, hxW, hy0, hyH⟩ := hok
  dsimp only at *
  have hH : (0 : ℤ) < H := by omega
  have hvh : ∀ a b : ℤ, 0 ≤ a → 0 ≤ b → hIdx H p q ≠ vIdx W H a b := by
    intro a b h5 h6
    have := hIdx_lt_base hp0 hpW hq0 hqH
    have := vIdx_ge_base (W := W) (H := H) h5 h6 (by omega)
    omega
  rcases hc with ⟨he, hb1, hb2⟩ | ⟨he, hb1, hb2⟩ | ⟨he, hb1, hb2⟩ | ⟨he, hb1, hb2⟩
  · obtain ⟨h1, h2⟩ := hIdx_decomp hH hy0 (by omega) hq0 (by omega) he.symm
    rw [← h1, ← h2]
    omega
  · obtain ⟨h1, h2⟩ := hIdx_decomp hH hy0 (by omega) hq0 (by omega) he.symm
    rw [← h1, ← h2]
    omega
  · exact absurd he (hvh x y hx0 hy0)
  · exact absurd he (hvh x (y + 1) hx0 (by omega))

/-- An owned vertical slot always lies on an edge whose endpoint values
differ. -/
lemma ownsN_v_cross {W H : ℤ} {β : ℤ → ℤ → ℤ} {C : ℤ × ℤ} {p t : ℤ}
    (h : ownsN W H β C (vIdx W H p t)) (hp0 : 0 ≤ p)
    (ht0 : 0 ≤ t) (htH : t ≤ H) : β p t ≠ β (p + 1) t := by
  obtain ⟨x, y⟩ := C
  obtain ⟨hok, hc⟩ := h
  obtain ⟨hx0, hxW, hy0, hyH⟩ := hok
  dsimp only at *
  have hH : (0 : ℤ) < H := by omega
  have hvh : ∀ a b : ℤ, 0 ≤ a → a ≤ W - 1 → 0 ≤ b → b ≤ H - 1 →
      hIdx H a b ≠ vIdx W H p t := by
    intro a b h1 h2 h3 h4
    have := hIdx_lt_base h1 h2 h3 h4
    have := vIdx_ge_base (W := W) (H := H) hp0 ht0 (by omega)
    omega
  rcases hc with ⟨he, hb1, hb2⟩ | ⟨he, hb1, hb2⟩ | ⟨he, hb1, hb2⟩ | ⟨he, hb1, hb2⟩
  · exact absurd he.symm (hvh x y hx0 (by omega) hy0 (by omega))
  · exact absurd he.symm (hvh (x + 1) y (by omega) (by omega) hy0 (by omega))
  · obtain ⟨h1, h2⟩ := vIdx_decomp (by omega) hy0 (by omega) ht0 htH he.symm
    rw [← h1, ← h2]
    omega
  · obtain ⟨h1, h2⟩ := vIdx_decomp (by omega) (by omega) (by omega) ht0 htH he.symm
    rw [← h1, ← h2]
    omega

/-! ## The pair invariant and its preservation -/

/-- The amended P1: next_edge and previous_edge are mutually inverse
wherever each is defined. -/
def pairInv (s : Adj) : Prop :=
  (∀ i, s.next i ≠ -1 → s.prev (s.next i) = i) ∧
  (∀ i, s.prev i ≠ -1 → s.next (s.prev i) = i)

/-- Negative indices are never written: both fields hold the fill value
there. -/
def negInv (s : Adj) : Prop := ∀ i, i < 0 → s.next i = -1 ∧ s.prev i = -1

/-- Every written slot has an owner among the processed cells. -/
def writeInv (W H : ℤ) (β : ℤ → ℤ → ℤ) (proc : List (ℤ × ℤ)) (s : Adj) : Prop :=
  (∀ e, s.next e ≠ -1 → ∃ C ∈ proc, ownsN W H β C e) ∧
  (∀ e, s.prev e ≠ -1 → ∃ C ∈ proc, ownsN W H (bcompl β) C e)

/-- All invariants carried through the compute_adajcency fold. -/
def adjLoopInv (W H : ℤ) (β : ℤ → ℤ → ℤ) (proc : List (ℤ × ℤ)) (s : Adj) : Prop :=
  pairInv s ∧ negInv s ∧ writeInv W H β proc s

lemma writeInv_mono {W H : ℤ} {β} {proc proc' : List (ℤ × ℤ)} {s : Adj}
    (hsub : ∀ C ∈ proc, C ∈ proc') (h : writeInv W H β proc s) :
    writeInv W H β proc' s := by
  constructor
  · intro e he
    obtain ⟨C, hC, hown⟩ := h.1 e he
    exact ⟨C, hsub C hC, hown⟩
  · intro e he
    obtain ⟨C, hC, hown⟩ := h.2 e he
    exact ⟨C, hsub C hC, hown⟩

lemma fresh_next {W H : ℤ} {β} {proc : List (ℤ × ℤ)} {s : Adj} {C : ℤ × ℤ} {e : ℤ}
    (hw : writeInv W H β proc s) (hnotin : C ∉ proc) (hown : ownsN W H β C e) :
    s.next e = -1 := by
  by_contra h
  obtain ⟨D, hD, hownD⟩ := hw.1 e h
  rw [← ownsN_unique hown hownD] at hD
  exact hnotin hD

lemma fresh_prev {W H : ℤ} {β} {proc : List (ℤ × ℤ)} {s : Adj} {C : ℤ × ℤ} {e : ℤ}
    (hw : writeInv W H β proc s) (hnotin : C ∉ proc)
    (hown : ownsN W H (bcompl β) C e) : s.prev e = -1 := by
  by_contra h
  obtain ⟨D, hD, hownD⟩ := hw.2 e h
  rw [← ownsN_unique hown hownD] at hD
  exact hnotin hD

/-- pairWrite on fresh non-negative slots preserves the pair and negative
invariants. -/
lemma pairWrite_pair {s : Adj} {e f : ℤ}
    (hp : pairInv s) (hn : negInv s) (he : s.next e = -1) (hf : s.prev f = -1)
    (he0 : 0 ≤ e) (hf0 : 0 ≤ f) :
    pairInv (pairWrite s e f) ∧ negInv (pairWrite s e f) := by
  refine ⟨⟨?_, ?_⟩, ?_⟩
  · intro i hi
    unfold pairWrite at hi ⊢
    dsimp only at hi ⊢
    by_cases hie : i = e
    · subst hie
      rw [Function.update_same] at hi ⊢
      rw [Function.update_same]
    · rw [Function.update_noteq hie _ _] at hi ⊢
      have hne : s.next i ≠ f := by
        intro hef
        have := hp.1 i hi
        rw [hef, hf] at this
        have : i = -1 := this.symm
        subst this
        have := (hn (-1) (by omega)).1
        exact hi this
      rw [Function.update_noteq hne _ _]
      exact hp.1 i hi
  · intro i hi
    unfold pairWrite at hi ⊢
    dsimp only at hi ⊢
    by_cases hif : i = f
    · subst hif
      rw [Function.update_same] at hi ⊢
      rw [Function.update_same]
    · rw [Function.update_noteq hif _ _] at hi ⊢
      have hne : s.prev i ≠ e := by
        intro hef
        have := hp.2 i hi
        rw [hef, he] at this
        have : i = -1 := this.symm
        subst this
        have := (hn (-1) (by omega)).2
        exact hi this
      rw [Function.update_noteq hne _ _]
      exact hp.2 i hi
  · intro i hi
    unfold pairWrite
    dsimp only
    constructor
    · rw [Function.update_noteq (by omega) _ _]
      exact (hn i hi).1
    · rw [Function.update_noteq (by omega) _ _]
      exact (hn i hi).2

/-- pairWrite extends the write invariant when the writer owns both
slots. -/
lemma pairWrite_writeInv {W H : ℤ} {β} {proc : List (ℤ × ℤ)} {s : Adj}
    {C : ℤ × ℤ} {e f : ℤ} (hw : writeInv W H β proc s) (hC : C ∈ proc)
    (hoe : ownsN W H β C e) (hof : ownsN W H (bcompl β) C f) :
    writeInv W H β proc (pairWrite s e f) := by
  constructor
  · intro i hi
    unfold pairWrite at hi
    dsimp only at hi
    by_cases hie : i = e
    · subst hie
      exact ⟨C, hC, hoe⟩
    · rw [Function.update_noteq hie _ _] at hi
      exact hw.1 i hi
  · intro i hi
    unfold pairWrite at hi
    dsimp only at hi
    by_cases hif : i = f
    · subst hif
      exact ⟨C, hC, hof⟩
    · rw [Function.update_noteq hif _ _] at hi
      exact hw.2 i hi

lemma killEdge_noop {s : Adj} {e : ℤ} (hn : s.next e = -1) (hp : s.prev e = -1) :
    killEdge s e = s := by
  unfold killEdge
  obtain ⟨nx, pv⟩ := s
  dsimp only at hn hp ⊢
  congr 1
  · rw [← hn]; exact Function.update_eq_self _ _
  · rw [← hp]; exact Function.update_eq_self _ _

lemma hIdx_nonneg {H p q : ℤ} (hp : 0 ≤ p) (hH : 0 ≤ H) (hq : 0 ≤ q) :
    0 ≤ hIdx H p q := by
  have := mul_nonneg hp hH
  unfold hIdx
  omega

lemma vIdx_nonneg {W H p t : ℤ} (hW : 0 ≤ W) (hH : 0 ≤ H) (hp : 0 ≤ p) (ht : 0 ≤ t) :
    0 ≤ vIdx W H p t := by
  have h1 := mul_nonneg hH (by omega : (0 : ℤ) ≤ W + 1)
  have h2 := mul_nonneg hp (by omega : (0 : ℤ) ≤ H + 1)
  unfold vIdx
  omega

lemma no_owner_next_h {W H : ℤ} {β} {proc : List (ℤ × ℤ)} {s : Adj} {p q : ℤ}
    (hw : writeInv W H β proc s) (hp0 : 0 ≤ p) (hpW : p ≤ W - 1)
    (hq0 : 0 ≤ q) (hqH : q ≤ H - 1) (heq : β p q = β p (q + 1)) :
    s.next (hIdx H p q) = -1 := by
  by_contra h
  obtain ⟨D, _, hown⟩ := hw.1 _ h
  exact ownsN_h_cross hown hp0 hpW hq0 hqH heq

lemma no_owner_prev_h {W H : ℤ} {β} {proc : List (ℤ × ℤ)} {s : Adj} {p q : ℤ}
    (hw : writeInv W H β proc s) (hp0 : 0 ≤ p) (hpW : p ≤ W - 1)
    (hq0 : 0 ≤ q) (hqH : q ≤ H - 1) (heq : β p q = β p (q + 1)) :
    s.prev (hIdx H p q) = -1 := by
  by_contra h
  obtain ⟨D, _, hown⟩ := hw.2 _ h
  exact ownsN_h_cross hown hp0 hpW hq0 hqH (by unfold bcompl; (try dsimp only); omega)

lemma no_owner_next_v {W H : ℤ} {β} {proc : List (ℤ × ℤ)} {s : Adj} {p t : ℤ}
    (hw : writeInv W H β proc s) (hp0 : 0 ≤ p)
    (ht0 : 0 ≤ t) (htH : t ≤ H) (heq : β p t = β (p + 1) t) :
    s.next (vIdx W H p t) = -1 := by
  by_contra h
  obtain ⟨D, _, hown⟩ := hw.1 _ h
  exact ownsN_v_cross hown hp0 ht0 htH heq

lemma no_owner_prev_v {W H : ℤ} {β} {proc : List (ℤ × ℤ)} {s : Adj} {p t : ℤ}
    (hw : writeInv W H β proc s) (hp0 : 0 ≤ p)
    (ht0 : 0 ≤ t) (htH : t ≤ H) (heq : β p t = β (p + 1) t) :
    s.prev (vIdx W H p t) = -1 := by
  by_contra h
  obtain ⟨D, _, hown⟩ := hw.2 _ h
  exact ownsN_v_cross hown hp0 ht0 htH (by unfold bcompl; (try dsimp only); omega)

/-- One pairWrite by the not-yet-processed owner cell preserves the loop
invariant with the cell appended. -/
lemma adjStep_one {W H : ℤ} {β} {proc : List (ℤ × ℤ)} {s : Adj} {C : ℤ × ℤ} {e f : ℤ}
    (hp : pairInv s) (hn : negInv s) (hw : writeInv W H β proc s)
    (hnotin : C ∉ proc) (hoe : ownsN W H β C e) (hof : ownsN W H (bcompl β) C f)
    (he0 : 0 ≤ e) (hf0 : 0 ≤ f) :
    adjLoopInv W H β (proc ++ [C]) (pairWrite s e f) := by
  have hsub : ∀ D ∈ proc, D ∈ proc ++ [C] := fun D hD => List.mem_append_left _ hD
  have hCin : C ∈ proc ++ [C] := List.mem_append_right _ (by simp)
  have hfe := fresh_next hw hnotin hoe
  have hff := fresh_prev hw hnotin hof
  obtain ⟨hp', hn'⟩ := pairWrite_pair hp hn hfe hff he0 hf0
  exact ⟨hp', hn', pairWrite_writeInv (writeInv_mono hsub hw) hCin hoe hof⟩

/-- Two pairWrites by the same owner cell (the ambiguous cases 5 and 10)
preserve the loop invariant. -/
lemma adjStep_two {W H : ℤ} {β} {proc : List (ℤ × ℤ)} {s : Adj} {C : ℤ × ℤ}
    {e1 f1 e2 f2 : ℤ}
    (hp : pairInv s) (hn : negInv s) (hw : writeInv W H β proc s)
    (hnotin : C ∉ proc)
    (hoe1 : ownsN W H β C e1) (hof1 : ownsN W H (bcompl β) C f1)
    (hoe2 : ownsN W H β C e2) (hof2 : ownsN W H (bcompl β) C f2)
    (he12 : e2 ≠ e1) (hf12 : f2 ≠ f1)
    (he10 : 0 ≤ e1) (hf10 : 0 ≤ f1) (he20 : 0 ≤ e2) (hf20 : 0 ≤ f2) :
    adjLoopInv W H β (proc ++ [C]) (pairWrite (pairWrite s e1 f1) e2 f2) := by
  have hsub : ∀ D ∈ proc, D ∈ proc ++ [C] := fun D hD => List.mem_append_left _ hD
  have hCin : C ∈ proc ++ [C] := List.mem_append_right _ (by simp)
  have hfe1 := fresh_next hw hnotin hoe1
  have hff1 := fresh_prev hw hnotin hof1
  have hfe2 := fresh_next hw hnotin hoe2
  have hff2 := fresh_prev hw hnotin hof2
  obtain ⟨hp1, hn1⟩ := pairWrite_pair hp hn hfe1 hff1 he10 hf10
  have hfe2' : (pairWrite s e1 f1).next e2 = -1 := by
    unfold pairWrite
    dsimp only
    rw [Function.update_noteq he12 _ _]
    exact hfe2
  have hff2' : (pairWrite s e1 f1).prev f2 = -1 := by
    unfold pairWrite
    dsimp only
    rw [Function.update_noteq hf12 _ _]
    exact hff2
  obtain ⟨hp2, hn2⟩ := pairWrite_pair hp1 hn1 hfe2' hff2' he20 hf20
  refine ⟨hp2, hn2, ?_⟩
  exact pairWrite_writeInv
    (pairWrite_writeInv (writeInv_mono hsub hw) hCin hoe1 hof1) hCin hoe2 hof2

/-- Processing one in-range unprocessed cell preserves the loop
invariant. -/
lemma adjCell_inv {W H : ℤ} {g : ℤ → ℤ → ℚ} {proc : List (ℤ × ℤ)} {s : Adj}
    {C : ℤ × ℤ} (hInv : adjLoopInv W H (bgrid g) proc s) (hnotin : C ∉ proc)
    (hr1 : 0 ≤ C.1) (hr2 : C.1 < W) (hr3 : 0 ≤ C.2) (hr4 : C.2 < H) :
    adjLoopInv W H (bgrid g) (proc ++ [C]) (adjCell W H g s C) := by
  obtain ⟨hp, hn, hw⟩ := hInv
  obtain ⟨x, y⟩ := C
  dsimp only at hr1 hr2 hr3 hr4
  have hsub : ∀ D ∈ proc, D ∈ proc ++ [(x, y)] := fun D hD => List.mem_append_left _ hD
  by_cases hg : ((x, y).1 ≠ W - 1 ∧ (x, y).2 ≠ H - 1)
  swap
  · unfold adjCell
    rw [if_neg hg]
    exact ⟨hp, hn, writeInv_mono hsub hw⟩
  have hx2 : x ≤ W - 2 := by have h := hg.1; dsimp only at h; omega
  have hy2 : y ≤ H - 2 := by have h := hg.2; dsimp only at h; omega
  have hok : cellOK W H x y := ⟨hr1, hx2, hr3, hy2⟩
  have hW0 : (0 : ℤ) ≤ W := by omega
  have hH0 : (0 : ℤ) ≤ H := by omega
  have hTop0 : 0 ≤ hIdx H x y := hIdx_nonneg hr1 hH0 hr3
  have hBot0 : 0 ≤ hIdx H (x + 1) y := hIdx_nonneg (by omega) hH0 hr3
  have hLeft0 : 0 ≤ vIdx W H x y := vIdx_nonneg hW0 hH0 hr1 hr3
  have hRight0 : 0 ≤ vIdx W H x (y + 1) := vIdx_nonneg hW0 hH0 hr1 (by omega)
  have hHH : hIdx H (x + 1) y ≠ hIdx H x y := by
    have hr : (x + 1) * H = x * H + H := by ring
    unfold hIdx
    omega
  have hVV : vIdx W H x y ≠ vIdx W H x (y + 1) := by unfold vIdx; omega
  rcases bgrid_cases g x y with hb1 | hb1 <;>
    rcases bgrid_cases g x (y + 1) with hb2 | hb2 <;>
      rcases bgrid_cases g (x + 1) (y + 1) with hb3 | hb3 <;>
        rcases bgrid_cases g (x + 1) y with hb4 | hb4
  -- (0,0,0,0): configuration 0
  · have hcfg : cellCfg g x y = 0 := by unfold cellCfg; rw [hb1, hb2, hb3, hb4]; norm_num
    simp only [adjCell, if_pos hg]
    rw [show ((x, y).1 : ℤ) = x from rfl, show ((x, y).2 : ℤ) = y from rfl] at *
    rw [edge_index_components]
    simp only [hcfg]
    norm_num
    rw [killEdge_noop
        (no_owner_next_h hw hr1 (by omega) hr3 (by omega) (by rw [hb1, hb2]))
        (no_owner_prev_h hw hr1 (by omega) hr3 (by omega) (by rw [hb1, hb2]))]
    rw [killEdge_noop
        (no_owner_next_v hw hr1 (by omega) (by omega) (by rw [hb2, hb3]))
        (no_owner_prev_v hw hr1 (by omega) (by omega) (by rw [hb2, hb3]))]
    rw [killEdge_noop
        (no_owner_next_h hw (by omega) (by omega) hr3 (by omega) (by rw [hb4, hb3]))
        (no_owner_prev_h hw (by omega) (by omega) hr3 (by omega) (by rw [hb4, hb3]))]
    rw [killEdge_noop
        (no_owner_next_v hw hr1 hr3 (by omega) (by rw [hb1, hb4]))
        (no_owner_prev_v hw hr1 hr3 (by omega) (by rw [hb1, hb4]))]
    exact ⟨hp, hn, writeInv_mono hsub hw⟩
  -- (0,0,0,1): configuration 8, left → bottom
  · have hcfg : cellCfg g x y = 8 := by unfold cellCfg; rw [hb1, hb2, hb3, hb4]; norm_num
    simp only [adjCell, if_pos hg]
    rw [show ((x, y).1 : ℤ) = x from rfl, show ((x, y).2 : ℤ) = y from rfl] at *
    rw [edge_index_components]
    simp only [hcfg]
    norm_num
    exact adjStep_one hp hn hw hnotin
      ⟨hok, Or.inr (Or.inr (Or.inl ⟨rfl, hb4, hb1⟩))⟩
      ⟨hok, Or.inr (Or.inl ⟨rfl, by unfold bcompl; (try dsimp only); omega, by unfold bcompl; (try dsimp only); omega⟩)⟩
      hLeft0 hBot0
  -- (0,0,1,0): configuration 4, bottom → right
  · have hcfg : cellCfg g x y = 4 := by unfold cellCfg; rw [hb1, hb2, hb3, hb4]; norm_num
    simp only [adjCell, if_pos hg]
    rw [show ((x, y).1 : ℤ) = x from rfl, show ((x, y).2 : ℤ) = y from rfl] at *
    rw [edge_index_components]
    simp only [hcfg]
    norm_num
    exact adjStep_one hp hn hw hnotin
      ⟨hok, Or.inr (Or.inl ⟨rfl, hb3, hb4⟩)⟩
      ⟨hok, Or.inr (Or.inr (Or.inr ⟨rfl, by unfold bcompl; (try dsimp only); omega, by unfold bcompl; (try dsimp only); omega⟩))⟩
      hBot0 hRight0
  -- (0,0,1,1): configuration 12, left → right
  · have hcfg : cellCfg g x y = 12 := by unfold cellCfg; rw [hb1, hb2, hb3, hb4]; norm_num
    simp only [adjCell, if_pos hg]
    rw [show ((x, y).1 : ℤ) = x from rfl, show ((x, y).2 : ℤ) = y from rfl] at *
    rw [edge_index_components]
    simp only [hcfg]
    norm_num
    exact adjStep_one hp hn hw hnotin
      ⟨hok, Or.inr (Or.inr (Or.inl ⟨rfl, hb4, hb1⟩))⟩
      ⟨hok, Or.inr (Or.inr (Or.inr ⟨rfl, by unfold bcompl; (try dsimp only); omega, by unfold bcompl; (try dsimp only); omega⟩))⟩
      hLeft0 hRight0
  -- (0,1,0,0): configuration 2, right → top
  · have hcfg : cellCfg g x y = 2 := by unfold cellCfg; rw [hb1, hb2, hb3, hb4]; norm_num
    simp only [adjCell, if_pos hg]
    rw [show ((x, y).1 : ℤ) = x from rfl, show ((x, y).2 : ℤ) = y from rfl] at *
    rw [edge_index_components]
    simp only [hcfg]
    norm_num
    exact adjStep_one hp hn hw hnotin
      ⟨hok, Or.inr (Or.inr (Or.inr ⟨rfl, hb2, hb3⟩))⟩
      ⟨hok, Or.inl ⟨rfl, by unfold bcompl; (try dsimp only); omega, by unfold bcompl; (try dsimp only); omega⟩⟩
      hRight0 hTop0
  -- (0,1,0,1): configuration 10, ambiguous
  · have hcfg : cellCfg g x y = 10 := by unfold cellCfg; rw [hb1, hb2, hb3, hb4]; norm_num
    simp only [adjCell, if_pos hg]
    rw [show ((x, y).1 : ℤ) = x from rfl, show ((x, y).2 : ℤ) = y from rfl] at *
    rw [edge_index_components]
    simp only [hcfg]
    norm_num
    by_cases hav : cellAvg g x y < 0
    · rw [if_pos hav]
      exact adjStep_two hp hn hw hnotin
        ⟨hok, Or.inr (Or.inr (Or.inr ⟨rfl, hb2, hb3⟩))⟩
        ⟨hok, Or.inl ⟨rfl, by unfold bcompl; (try dsimp only); omega, by unfold bcompl; (try dsimp only); omega⟩⟩
        ⟨hok, Or.inr (Or.inr (Or.inl ⟨rfl, hb4, hb1⟩))⟩
        ⟨hok, Or.inr (Or.inl ⟨rfl, by unfold bcompl; (try dsimp only); omega, by unfold bcompl; (try dsimp only); omega⟩)⟩
        hVV hHH hRight0 hTop0 hLeft0 hBot0
    · rw [if_neg hav]
      exact adjStep_two hp hn hw hnotin
        ⟨hok, Or.inr (Or.inr (Or.inl ⟨rfl, hb4, hb1⟩))⟩
        ⟨hok, Or.inl ⟨rfl, by unfold bcompl; (try dsimp only); omega, by unfold bcompl; (try dsimp only); omega⟩⟩
        ⟨hok, Or.inr (Or.inr (Or.inr ⟨rfl, hb2, hb3⟩))⟩
        ⟨hok, Or.inr (Or.inl ⟨rfl, by unfold bcompl; (try dsimp only); omega, by unfold bcompl; (try dsimp only); omega⟩)⟩
        (Ne.symm hVV) hHH hLeft0 hTop0 hRight0 hBot0
  -- (0,1,1,0): configuration 6, bottom → top
  · have hcfg : cellCfg g x y = 6 := by unfold cellCfg; rw [hb1, hb2, hb3, hb4]; norm_num
    simp only [adjCell, if_pos hg]
    rw [show ((x, y).1 : ℤ) = x from rfl, show ((x, y).2 : ℤ) = y from rfl] at *
    rw [edge_index_components]
    simp only [hcfg]
    norm_num
    exact adjStep_one hp hn hw hnotin
      ⟨hok, Or.inr (Or.inl ⟨rfl, hb3, hb4⟩)⟩
      ⟨hok, Or.inl ⟨rfl, by unfold bcompl; (try dsimp only); omega, by unfold bcompl; (try dsimp only); omega⟩⟩
      hBot0 hTop0
  -- (0,1,1,1): configuration 14, left → top
  · have hcfg : cellCfg g x y = 14 := by unfold cellCfg; rw [hb1, hb2, hb3, hb4]; norm_num
    simp only [adjCell, if_pos hg]
    rw [show ((x, y).1 : ℤ) = x from rfl, show ((x, y).2 : ℤ) = y from rfl] at *
    rw [edge_index_components]
    simp only [hcfg]
    norm_num
    exact adjStep_one hp hn hw hnotin
      ⟨hok, Or.inr (Or.inr (Or.inl ⟨rfl, hb4, hb1⟩))⟩
      ⟨hok, Or.inl ⟨rfl, by unfold bcompl; (try dsimp only); omega, by unfold bcompl; (try dsimp only); omega⟩⟩
      hLeft0 hTop0
  -- (1,0,0,0): configuration 1, top → left
  · have hcfg : cellCfg g x y = 1 := by unfold cellCfg; rw [hb1, hb2, hb3, hb4]; norm_num
    simp only [adjCell, if_pos hg]
    rw [show ((x, y).1 : ℤ) = x from rfl, show ((x, y).2 : ℤ) = y from rfl] at *
    rw [edge_index_components]
    simp only [hcfg]
    norm_num
    exact adjStep_one hp hn hw hnotin
      ⟨hok, Or.inl ⟨rfl, hb1, hb2⟩⟩
      ⟨hok, Or.inr (Or.inr (Or.inl ⟨rfl, by unfold bcompl; (try dsimp only); omega, by unfold bcompl; (try dsimp only); omega⟩))⟩
      hTop0 hLeft0
  -- (1,0,0,1): configuration 9, top → bottom
  · have hcfg : cellCfg g x y = 9 := by unfold cellCfg; rw [hb1, hb2, hb3, hb4]; norm_num
    simp only [adjCell, if_pos hg]
    rw [show ((x, y).1 : ℤ) = x from rfl, show ((x, y).2 : ℤ) = y from rfl] at *
    rw [edge_index_components]
    simp only [hcfg]
    norm_num
    exact adjStep_one hp hn hw hnotin
      ⟨hok, Or.inl ⟨rfl, hb1, hb2⟩⟩
      ⟨hok, Or.inr (Or.inl ⟨rfl, by unfold bcompl; (try dsimp only); omega, by unfold bcompl; (try dsimp only); omega⟩)⟩
      hTop0 hBot0
  -- (1,0,1,0): configuration 5, ambiguous
  · have hcfg : cellCfg g x y = 5 := by unfold cellCfg; rw [hb1, hb2, hb3, hb4]; norm_num
    simp only [adjCell, if_pos hg]
    rw [show ((x, y).1 : ℤ) = x from rfl, show ((x, y).2 : ℤ) = y from rfl] at *
    rw [edge_index_components]
    simp only [hcfg]
    norm_num
    by_cases hav : cellAvg g x y > 0
    · rw [if_pos hav]
      exact adjStep_two hp hn hw hnotin
        ⟨hok, Or.inl ⟨rfl, hb1, hb2⟩⟩
        ⟨hok, Or.inr (Or.inr (Or.inr ⟨rfl, by unfold bcompl; (try dsimp only); omega, by unfold bcompl; (try dsimp only); omega⟩))⟩
        ⟨hok, Or.inr (Or.inl ⟨rfl, hb3, hb4⟩)⟩
        ⟨hok, Or.inr (Or.inr (Or.inl ⟨rfl, by unfold bcompl; (try dsimp only); omega, by unfold bcompl; (try dsimp only); omega⟩))⟩
        hHH hVV hTop0 hRight0 hBot0 hLeft0
    · rw [if_neg hav]
      exact adjStep_two hp hn hw hnotin
        ⟨hok, Or.inl ⟨rfl, hb1, hb2⟩⟩
        ⟨hok, Or.inr (Or.inr (Or.inl ⟨rfl, by unfold bcompl; (try dsimp only); omega, by unfold bcompl; (try dsimp only); omega⟩))⟩
        ⟨hok, Or.inr (Or.inl ⟨rfl, hb3, hb4⟩)⟩
        ⟨hok, Or.inr (Or.inr (Or.inr ⟨rfl, by unfold bcompl; (try dsimp only); omega, by unfold bcompl; (try dsimp only); omega⟩))⟩
        hHH (Ne.symm hVV) hTop0 hLeft0 hBot0 hRight0
  -- (1,0,1,1): configuration 13, top → right
  · have hcfg : cellCfg g x y = 13 := by unfold cellCfg; rw [hb1, hb2, hb3, hb4]; norm_num
    simp only [adjCell, if_pos hg]
    rw [show ((x, y).1 : ℤ) = x from rfl, show ((x, y).2 : ℤ) = y from rfl] at *
    rw [edge_index_components]
    simp only [hcfg]
    norm_num
    exact adjStep_one hp hn hw hnotin
      ⟨hok, Or.inl ⟨rfl, hb1, hb2⟩⟩
      ⟨hok, Or.inr (Or.inr (Or.inr ⟨rfl, by unfold bcompl; (try dsimp only); omega, by unfold bcompl; (try dsimp only); omega⟩))⟩
      hTop0 hRight0
  -- (1,1,0,0): configuration 3, right → left
  · have hcfg : cellCfg g x y = 3 := by unfold cellCfg; rw [hb1, hb2, hb3, hb4]; norm_num
    simp only [adjCell, if_pos hg]
    rw [show ((x, y).1 : ℤ) = x from rfl, show ((x, y).2 : ℤ) = y from rfl] at *
    rw [edge_index_components]
    simp only [hcfg]
    norm_num
    exact adjStep_one hp hn hw hnotin
      ⟨hok, Or.inr (Or.inr (Or.inr ⟨rfl, hb2, hb3⟩))⟩
      ⟨hok, Or.inr (Or.inr (Or.inl ⟨rfl, by unfold bcompl; (try dsimp only); omega, by unfold bcompl; (try dsimp only); omega⟩))⟩
      hRight0 hLeft0
  -- (1,1,0,1): configuration 11, right → bottom
  · have hcfg : cellCfg g x y = 11 := by unfold cellCfg; rw [hb1, hb2, hb3, hb4]; norm_num
    simp only [adjCell, if_pos hg]
    rw [show ((x, y).1 : ℤ) = x from rfl, show ((x, y).2 : ℤ) = y from rfl] at *
    rw [edge_index_components]
    simp only [hcfg]
    norm_num
    exact adjStep_one hp hn hw hnotin
      ⟨hok, Or.inr (Or.inr (Or.inr ⟨rfl, hb2, hb3⟩))⟩
      ⟨hok, Or.inr (Or.inl ⟨rfl, by unfold bcompl; (try dsimp only); omega, by unfold bcompl; (try dsimp only); omega⟩)⟩
      hRight0 hBot0
  -- (1,1,1,0): configuration 7, bottom → left
  · have hcfg : cellCfg g x y = 7 := by unfold cellCfg; rw [hb1, hb2, hb3, hb4]; norm_num
    simp only [adjCell, if_pos hg]
    rw [show ((x, y).1 : ℤ) = x from rfl, show ((x, y).2 : ℤ) = y from rfl] at *
    rw [edge_index_components]
    simp only [hcfg]
    norm_num
    exact adjStep_one hp hn hw hnotin
      ⟨hok, Or.inr (Or.inl ⟨rfl, hb3, hb4⟩)⟩
      ⟨hok, Or.inr (Or.inr (Or.inl ⟨rfl, by unfold bcompl; (try dsimp only); omega, by unfold bcompl; (try dsimp only); omega⟩))⟩
      hBot0 hLeft0
  -- (1,1,1,1): configuration 15
  · have hcfg : cellCfg g x y = 15 := by unfold cellCfg; rw [hb1, hb2, hb3, hb4]; norm_num
    simp only [adjCell, if_pos hg]
    rw [show ((x, y).1 : ℤ) = x from rfl, show ((x, y).2 : ℤ) = y from rfl] at *
    rw [edge_index_components]
    simp only [hcfg]
    norm_num
    rw [killEdge_noop
        (no_owner_next_h hw hr1 (by omega) hr3 (by omega) (by rw [hb1, hb2]))
        (no_owner_prev_h hw hr1 (by omega) hr3 (by omega) (by rw [hb1, hb2]))]
    rw [killEdge_noop
        (no_owner_next_v hw hr1 (by omega) (by omega) (by rw [hb2, hb3]))
        (no_owner_prev_v hw hr1 (by omega) (by omega) (by rw [hb2, hb3]))]
    rw [killEdge_noop
        (no_owner_next_h hw (by omega) (by omega) hr3 (by omega) (by rw [hb4, hb3]))
        (no_owner_prev_h hw (by omega) (by omega) hr3 (by omega) (by rw [hb4, hb3]))]
    rw [killEdge_noop
        (no_owner_next_v hw hr1 hr3 (by omega) (by rw [hb1, hb4]))
        (no_owner_prev_v hw hr1 hr3 (by omega) (by rw [hb1, hb4]))]
    exact ⟨hp, hn, writeInv_mono hsub hw⟩

lemma cellsList_nodup (W H : ℕ) : (cellsList W H).Nodup := by
  unfold cellsList
  rw [List.nodup_flatMap]
  constructor
  · intro x _
    refine List.Nodup.map ?_ (List.nodup_range _)
    intro a b hab
    simpa using hab
  · have hpw : (List.range W).Pairwise (· < ·) := List.pairwise_lt_range _
    refine hpw.imp ?_
    intro a b hab
    intro p hpa hpb
    rw [List.mem_map] at hpa hpb
    obtain ⟨u, _, hu⟩ := hpa
    obtain ⟨v, _, hv⟩ := hpb
    rw [← hu] at hv
    have hfst : Int.ofNat b = Int.ofNat a := congrArg Prod.fst hv
    simp only [Int.ofNat_eq_coe] at hfst
    omega

lemma foldl_adjInv {W H : ℤ} {g : ℤ → ℤ → ℚ} (l : List (ℤ × ℤ)) :
    ∀ (proc : List (ℤ × ℤ)) (s : Adj), l.Nodup → (∀ C ∈ l, C ∉ proc) →
    (∀ C ∈ l, 0 ≤ C.1 ∧ C.1 < W ∧ 0 ≤ C.2 ∧ C.2 < H) →
    adjLoopInv W H (bgrid g) proc s →
    adjLoopInv W H (bgrid g) (proc ++ l) (l.foldl (adjCell W H g) s) := by
  induction l with
  | nil => intro proc s _ _ _ h; simpa using h
  | cons C t ih =>
    intro proc s hnd hdis hrange h
    have hr := hrange C (by simp)
    have h1 := adjCell_inv h (hdis C (by simp)) hr.1 hr.2.1 hr.2.2.1 hr.2.2.2
    have hnotint : C ∉ t := (List.nodup_cons.mp hnd).1
    have h2 := ih (proc ++ [C]) (adjCell W H g s C) (List.nodup_cons.mp hnd).2
      (fun D hD => by
        rw [List.mem_append]
        push_neg
        refine ⟨hdis D (List.mem_cons_of_mem _ hD), ?_⟩
        simp only [List.mem_singleton]
        intro he
        subst he
        exact hnotint hD)
      (fun D hD => hrange D (List.mem_cons_of_mem _ hD)) h1
    rw [List.foldl_cons]
    have hl : (proc ++ [C]) ++ t = proc ++ C :: t := by
      rw [List.append_assoc, List.singleton_append]
    rw [← hl]
    exact h2

/-- The full loop invariant holds of the extraction result. -/
lemma extraction_adjInv (W H : ℕ) (g : ℤ → ℤ → ℚ) :
    adjLoopInv W H (bgrid g) (cellsList W H) (to_graph_adj W H g) := by
  have h0 : adjLoopInv (W : ℤ) (H : ℤ) (bgrid g) [] initAdj := by
    refine ⟨⟨?_, ?_⟩, ?_, ?_, ?_⟩
    · intro i hi; exact absurd rfl hi
    · intro i hi; exact absurd rfl hi
    · intro i _; exact ⟨rfl, rfl⟩
    · intro e he; exact absurd rfl he
    · intro e he; exact absurd rfl he
  have h := foldl_adjInv (cellsList W H) [] initAdj (cellsList_nodup W H)
    (by intro C _ hC; simp at hC)
    (fun C hC => mem_cellsList.mp hC) h0
  simpa using h

/-- The four-pointer rewrite of stitch_two_cycles (stitch.py lines 62-72),
on the adjacency fields: next_edge[i1] = j2, previous_edge[i2] = j1,
next_edge[j1] = i2, previous_edge[j2] = i1, where i2 and j2 are the old
successors of i1 and j1. -/
def spliceAdj (s : Adj) (i1 j1 : ℤ) : Adj :=
  ⟨Function.update (Function.update s.next i1 (s.next j1)) j1 (s.next i1),
   Function.update (Function.update s.prev (s.next i1) j1) (s.next j1) i1⟩

/-- The splice rewrite preserves the mutual-inverse pair invariant when
the two rewired edges are distinct and both labeled. -/
lemma spliceAdj_pairInv {s : Adj} {i1 j1 : ℤ} (hp : pairInv s)
    (h1 : s.next i1 ≠ -1) (h2 : s.next j1 ≠ -1) (hij : i1 ≠ j1) :
    pairInv (spliceAdj s i1 j1) := by
  have hpi2 : s.prev (s.next i1) = i1 := hp.1 i1 h1
  have hpj2 : s.prev (s.next j1) = j1 := hp.1 j1 h2
  have hi2j2 : s.next i1 ≠ s.next j1 := by
    intro he
    rw [he, hpj2] at hpi2
    exact hij hpi2.symm
  constructor
  · intro k hk
    unfold spliceAdj at hk ⊢
    dsimp only at hk ⊢
    by_cases hkj : k = j1
    · subst hkj
      rw [Function.update_same] at hk ⊢
      rw [Function.update_noteq hi2j2 _ _, Function.update_same]
    · rw [Function.update_noteq hkj _ _] at hk ⊢
      by_cases hki : k = i1
      · subst hki
        rw [Function.update_same] at hk ⊢
        rw [Function.update_same]
      · rw [Function.update_noteq hki _ _] at hk ⊢
        have hni : s.next k ≠ s.next i1 := by
          intro he
          have := hp.1 k hk
          rw [he, hpi2] at this
          exact hki this.symm
        have hnj : s.next k ≠ s.next j1 := by
          intro he
          have := hp.1 k hk
          rw [he, hpj2] at this
          exact hkj this.symm
        rw [Function.update_noteq hnj _ _, Function.update_noteq hni _ _]
        exact hp.1 k hk
  · intro k hk
    unfold spliceAdj at hk ⊢
    dsimp only at hk ⊢
    by_cases hkj : k = s.next j1
    · subst hkj
      rw [Function.update_same] at hk ⊢
      rw [Function.update_noteq hij _ _, Function.update_same]
    · rw [Function.update_noteq hkj _ _] at hk ⊢
      by_cases hki : k = s.next i1
      · subst hki
        rw [Function.update_same] at hk ⊢
        rw [Function.update_same]
      · rw [Function.update_noteq hki _ _] at hk ⊢
        have hpi : s.prev k ≠ i1 := by
          intro he
          have := hp.2 k hk
          rw [he] at this
          exact hki this.symm
        have hpj : s.prev k ≠ j1 := by
          intro he
          have := hp.2 k hk
          rw [he] at this
          exact hkj this.symm
        rw [Function.update_noteq hpj _ _, Function.update_noteq hpi _ _]
        exact hp.2 k hk

/-- A 2 × 2 grid whose only positive sample is the corner (0, 0): cell
(0, 0) has configuration 1, so next_edge[0] = 6 is written but edge 0 has
no incoming pointer (its previous_edge writer cell (-1, 0) is outside the
grid). -/
def gCorner : ℤ → ℤ → ℚ := fun x y => if x = 0 ∧ y = 0 then 1 else -1

/-- C4 counterexample: after extraction on gCorner, edge 0 is labeled
(next_edge[0] = 6 ≠ NONE) but previous_edge[0] is the sentinel -1, so the
claimed next_edge[prev_edge[0]] == 0 fails: the embedding's total
next_edge gives -1 at index -1. -/
theorem pair_invariant_counterexample :
    (to_graph_adj 2 2 gCorner).next 0 = 6 ∧
    (to_graph_adj 2 2 gCorner).prev 0 = -1 ∧
    (to_graph_adj 2 2 gCorner).next ((to_graph_adj 2 2 gCorner).prev 0) ≠ 0 := by
  refine ⟨by decide, by decide, by decide⟩

/-- C4 amended: after extraction, next_edge and previous_edge are mutually
inverse partial maps — prev_edge[next_edge[i]] == i for every i with
next_edge[i] != NONE, and next_edge[prev_edge[i]] == i for every i with
prev_edge[i] != NONE — and the four-pointer splice rewrite of
stitch_two_cycles preserves this whenever the two spliced edges are
distinct and both labeled. -/
theorem pair_invariant (W H : ℕ) (g : ℤ → ℤ → ℚ) :
    pairInv (to_graph_adj W H g) ∧
    (∀ (s : Adj) (i1 j1 : ℤ), pairInv s → s.next i1 ≠ -1 → s.next j1 ≠ -1 →
      i1 ≠ j1 → pairInv (spliceAdj s i1 j1)) :=
  ⟨(extraction_adjInv W H g).1,
   fun _ _ _ hp h1 h2 hij => spliceAdj_pairInv hp h1 h2 hij⟩

/-- A 4 × 4 grid with a single positive interior sample at (1, 1),
producing the 4-edge ring 4 → 21 → 5 → 26 → 4. -/
def gRing : ℤ → ℤ → ℚ := fun x y => if x = 1 ∧ y = 1 then 1 else -1

/-- Two one-edge cycles on edges 3 and 5, used to exercise the splice
rewrite. -/
def demoAdj : Adj :=
  ⟨fun e => if e = 3 then 3 else if e = 5 then 5 else -1,
   fun e => if e = 3 then 3 else if e = 5 then 5 else -1⟩

lemma demoAdj_pairInv : pairInv demoAdj := by
  constructor <;>
    · intro i hi
      unfold demoAdj at hi ⊢
      dsimp only at hi ⊢
      split_ifs at hi with h1 h2
      · subst h1; norm_num
      · subst h2; norm_num
      · exact absurd rfl hi

/-- Witness for pair_invariant: on gRing the extracted ring satisfies
prev_edge[next_edge[4]] = 4, and splicing the two one-edge cycles of
demoAdj at edges 3 and 5 preserves the invariant, witnessed at edge 3. -/
theorem pair_invariant_witness :
    (to_graph_adj 4 4 gRing).prev ((to_graph_adj 4 4 gRing).next 4) = 4 ∧
    (spliceAdj demoAdj 3 5).prev ((spliceAdj demoAdj 3 5).next 3) = 3 :=
  ⟨(pair_invariant 4 4 gRing).1.1 4 (by decide),
   ((pair_invariant 4 4 gRing).2 demoAdj 3 5 demoAdj_pairInv (by decide) (by decide)
     (by decide)).1 3 (by decide)⟩

/-! ## Point computation (src/cglib/graph.py, compute_points; claim C5)

points is a total function ℤ → Option (ℚ × ℚ); none is the NaN sentinel
written by to_graph's points.fill(nan).  Each in-range cell writes the
crossing point of its right and bottom shared edges when the endpoint
binary values differ. -/

/-- Embedding of index2d_to_cartesians_coo. -/
def index2d_to_cartesians_coo (W H x y : ℤ) : ℚ × ℚ :=
  ((x : ℚ) / ((max W H : ℤ) : ℚ), (y : ℚ) / ((max W H : ℤ) : ℚ))

/-- Embedding of linear_interpolation (calc.py lines 11-64). -/
def linear_interpolation (g : ℤ → ℤ → ℚ) (W H : ℤ) (p0 p1 : ℤ × ℤ)
    (value : ℚ) : ℚ × ℚ :=
  let c0 := index2d_to_cartesians_coo W H p0.1 p0.2
  let c1 := index2d_to_cartesians_coo W H p1.1 p1.2
  if p0.2 = p1.2 then
    (c0.1 + (value - g p0.1 p0.2) * (c1.1 - c0.1) / (g p1.1 p1.2 - g p0.1 p0.2),
     c1.2)
  else
    (c0.1,
     c0.2 + (value - g p0.1 p0.2) * (c1.2 - c0.2) / (g p1.1 p1.2 - g p0.1 p0.2))

/-- Body of the compute_points loop for one cell: populate the right and
bottom shared edges where the endpoint binary values differ. -/
def pointsCell (W H : ℤ) (g : ℤ → ℤ → ℚ) (pts : ℤ → Option (ℚ × ℚ))
    (c : ℤ × ℤ) : ℤ → Option (ℚ × ℚ) :=
  if c.1 ≠ W - 1 ∧ c.2 ≠ H - 1 then
    let e := index2d_to_edge_index W H c.1 c.2
    let p1 :=
      if bgrid g c.1 (c.2 + 1) ≠ bgrid g (c.1 + 1) (c.2 + 1) then
        Function.update pts e.2.1
          (some (linear_interpolation g W H (c.1, c.2 + 1) (c.1 + 1, c.2 + 1) 0))
      else pts
    if bgrid g (c.1 + 1) (c.2 + 1) ≠ bgrid g (c.1 + 1) c.2 then
      Function.update p1 e.2.2.1
        (some (linear_interpolation g W H (c.1 + 1, c.2 + 1) (c.1 + 1, c.2) 0))
    else p1
  else pts

/-- Embedding of the compute_points kernel. -/
def compute_points (W H : ℕ) (g : ℤ → ℤ → ℚ) (pts : ℤ → Option (ℚ × ℚ)) :
    ℤ → Option (ℚ × ℚ) :=
  (cellsList W H).foldl (pointsCell W H g) pts

/-- The points field produced by to_graph: fill with NaN, then run
compute_points. -/
def to_graph_points (W H : ℕ) (g : ℤ → ℤ → ℚ) : ℤ → Option (ℚ × ℚ) :=
  compute_points W H g (fun _ => none)

lemma pointsCell_mono {W H : ℤ} {g} {pts : ℤ → Option (ℚ × ℚ)} {c : ℤ × ℤ} {e : ℤ}
    (h : (pts e).isSome) : ((pointsCell W H g pts c) e).isSome := by
  unfold pointsCell
  split_ifs with h1 h2 h3 <;> try exact h
  all_goals
    simp only [Function.update_apply]
    split_ifs <;> first | rfl | exact h

lemma foldl_points_mono {W H : ℤ} {g} (l : List (ℤ × ℤ)) :
    ∀ {pts : ℤ → Option (ℚ × ℚ)} {e : ℤ}, (pts e).isSome →
    ((l.foldl (pointsCell W H g) pts) e).isSome := by
  induction l with
  | nil => intro pts e h; exact h
  | cons c t ih => intro pts e h; exact ih (pointsCell_mono h)

/-- The bottom-edge write of one cell. -/
lemma pointsCell_writes_bottom {W H : ℤ} {g} (pts : ℤ → Option (ℚ × ℚ))
    {x y : ℤ} (hguard : x ≠ W - 1 ∧ y ≠ H - 1)
    (hcross : bgrid g (x + 1) (y + 1) ≠ bgrid g (x + 1) y) :
    ((pointsCell W H g pts (x, y)) (hIdx H (x + 1) y)).isSome := by
  unfold pointsCell
  rw [if_pos hguard]
  dsimp only
  rw [if_pos hcross, edge_index_components]
  dsimp only
  rw [Function.update_same]
  rfl

/-- The right-edge write of one cell (the later bottom write, if any,
lands on a different slot). -/
lemma pointsCell_writes_right {W H : ℤ} {g} (pts : ℤ → Option (ℚ × ℚ))
    {x y : ℤ} (hguard : x ≠ W - 1 ∧ y ≠ H - 1)
    (hx0 : 0 ≤ x) (hxW : x < W) (hy0 : 0 ≤ y) (hyH : y < H)
    (hcross : bgrid g x (y + 1) ≠ bgrid g (x + 1) (y + 1)) :
    ((pointsCell W H g pts (x, y)) (vIdx W H x (y + 1))).isSome := by
  have hne : hIdx H (x + 1) y ≠ vIdx W H x (y + 1) := by
    have hg1 : x ≠ W - 1 := hguard.1
    have hg2 : y ≠ H - 1 := hguard.2
    have h1 := hIdx_lt_base (W := W) (H := H) (p := x + 1) (q := y)
      (by omega) (by omega) hy0 (by omega)
    have h2 := vIdx_ge_base (W := W) (H := H) (p := x) (t := y + 1) hx0 (by omega) (by omega)
    omega
  unfold pointsCell
  rw [if_pos hguard]
  dsimp only
  rw [edge_index_components]
  dsimp only
  rw [if_pos hcross]
  split_ifs with h2
  · rw [Function.update_noteq (Ne.symm hne) _ _, Function.update_same]
    rfl
  · rw [Function.update_same]
    rfl

lemma foldl_points_write {W H : ℤ} {g} (l : List (ℤ × ℤ)) :
    ∀ {pts : ℤ → Option (ℚ × ℚ)} {D : ℤ × ℤ} {e : ℤ}, D ∈ l →
    (∀ q : ℤ → Option (ℚ × ℚ), ((pointsCell W H g q D) e).isSome) →
    ((l.foldl (pointsCell W H g) pts) e).isSome := by
  induction l with
  | nil => intro pts D e h _; simp at h
  | cons c t ih =>
    intro pts D e hD hwrite
    rcases List.mem_cons.mp hD with h | h
    · subst h
      exact foldl_points_mono t (hwrite pts)
    · exact ih h hwrite

/-- C5 counterexample: on gCorner, edge 0 is labeled after extraction
(next_edge[0] = 6), yet points[0] still holds the NaN sentinel, because
compute_points populates a top edge only from the cell above, and edge 0
lies on the grid's first column where no such cell exists. -/
theorem points_valid_counterexample :
    (to_graph_adj 2 2 gCorner).next 0 ≠ -1 ∧
    to_graph_points 2 2 gCorner 0 = none := by
  refine ⟨by decide, by decide⟩

/-- C5 amended: after extraction on a NaN-free grid, every labeled edge
that is not on the grid's first column (horizontal edges with x-part 0) or
first row (vertical edges with y-part 0) has a valid (non-sentinel) point;
the stitching functions never touch points. -/
theorem points_valid (W H : ℕ) (g : ℤ → ℤ → ℚ) :
    (∀ p q : ℤ, 1 ≤ p → p ≤ (W : ℤ) - 1 → 0 ≤ q → q ≤ (H : ℤ) - 1 →
      (to_graph_adj W H g).next (hIdx H p q) ≠ -1 →
      ((to_graph_points W H g) (hIdx H p q)).isSome) ∧
    (∀ x t : ℤ, 0 ≤ x → 1 ≤ t → t ≤ (H : ℤ) →
      (to_graph_adj W H g).next (vIdx W H x t) ≠ -1 →
      ((to_graph_points W H g) (vIdx W H x t)).isSome) := by
  have hinv := extraction_adjInv W H g
  constructor
  · intro p q hp1 hpW hq0 hqH hnext
    obtain ⟨C, _, hown⟩ := hinv.2.2.1 _ hnext
    obtain ⟨x, y⟩ := C
    obtain ⟨hok, hcases⟩ := hown
    obtain ⟨hx0, hxW, hy0, hyH⟩ := hok
    dsimp only at hx0 hxW hy0 hyH hcases
    have hH : (0 : ℤ) < H := by omega
    have hvcontra : ∀ a b : ℤ, 0 ≤ a → 0 ≤ b → hIdx H p q ≠ vIdx W H a b := by
      intro a b h5 h6
      have := hIdx_lt_base (W := W) (H := H) (by omega) hpW hq0 hqH
      have := vIdx_ge_base (W := W) (H := H) h5 h6 (by omega)
      omega
    have hp' : p - 1 + 1 = p := by ring
    rcases hcases with ⟨he, hb1, hb2⟩ | ⟨he, hb1, hb2⟩ | ⟨he, _, _⟩ | ⟨he, _, _⟩
    · obtain ⟨h1, h2⟩ := hIdx_decomp hH hq0 (by omega) hy0 (by omega) he
      have hq2 : q ≤ (H : ℤ) - 2 := by omega
      have hcross : bgrid g (p - 1 + 1) (q + 1) ≠ bgrid g (p - 1 + 1) q := by
        rw [hp', h1, h2]
        omega
      refine foldl_points_write (cellsList W H) (D := (p - 1, q)) ?_ ?_
      · exact mem_cellsList.mpr ⟨by omega, by omega, by omega, by omega⟩
      · intro pts
        have hw := pointsCell_writes_bottom (W := W) (H := H) (g := g) (x := p - 1) (y := q) pts ⟨by omega, by omega⟩ hcross
        rw [hp'] at hw
        exact hw
    · obtain ⟨h1, h2⟩ := hIdx_decomp hH hq0 (by omega) hy0 (by omega) he
      have hq2 : q ≤ (H : ℤ) - 2 := by omega
      have hx2 : p ≤ (W : ℤ) - 1 := by omega
      have hcross : bgrid g (p - 1 + 1) (q + 1) ≠ bgrid g (p - 1 + 1) q := by
        rw [hp', h1, h2]
        omega
      refine foldl_points_write (cellsList W H) (D := (p - 1, q)) ?_ ?_
      · exact mem_cellsList.mpr ⟨by omega, by omega, by omega, by omega⟩
      · intro pts
        have hw := pointsCell_writes_bottom (W := W) (H := H) (g := g) (x := p - 1) (y := q) pts ⟨by omega, by omega⟩ hcross
        rw [hp'] at hw
        exact hw
    · exact absurd he (hvcontra x y hx0 hy0)
    · exact absurd he (hvcontra x (y + 1) hx0 (by omega))
  · intro x t hx0 ht1 htH hnext
    obtain ⟨C, _, hown⟩ := hinv.2.2.1 _ hnext
    obtain ⟨a, b⟩ := C
    obtain ⟨hok, hcases⟩ := hown
    obtain ⟨ha0, haW, hb0, hbH⟩ := hok
    dsimp only at ha0 haW hb0 hbH hcases
    have hH : (0 : ℤ) < H := by omega
    have hhcontra : ∀ u v : ℤ, 0 ≤ u → u ≤ W - 1 → 0 ≤ v → v ≤ H - 1 →
        hIdx H u v ≠ vIdx W H x t := by
      intro u v h1 h2 h3 h4
      have := hIdx_lt_base (W := W) (H := H) h1 h2 h3 h4
      have := vIdx_ge_base (W := W) (H := H) (p := x) (t := t) hx0 (by omega) (by omega)
      omega
    have ht' : t - 1 + 1 = t := by ring
    rcases hcases with ⟨he, _, _⟩ | ⟨he, _, _⟩ | ⟨he, hb1, hb2⟩ | ⟨he, hb1, hb2⟩
    · exact absurd he.symm (hhcontra a b ha0 (by omega) hb0 (by omega))
    · exact absurd he.symm (hhcontra (a + 1) b (by omega) (by omega) hb0 (by omega))
    · obtain ⟨h1, h2⟩ := vIdx_decomp (by omega) hb0 (by omega) (by omega) htH he.symm
      have ht2 : t ≤ (H : ℤ) - 2 := by omega
      have haW2 : x ≤ (W : ℤ) - 2 := by omega
      have hcross : bgrid g x (t - 1 + 1) ≠ bgrid g (x + 1) (t - 1 + 1) := by
        rw [ht']
        rw [h1, h2] at hb1 hb2
        omega
      refine foldl_points_write (cellsList W H) (D := (x, t - 1)) ?_ ?_
      · exact mem_cellsList.mpr ⟨by omega, by omega, by omega, by omega⟩
      · intro pts
        have hw := pointsCell_writes_right (W := W) (H := H) (g := g) (x := x) (y := t - 1) pts ⟨by omega, by omega⟩ hx0 (by omega) (by omega) (by omega)
          hcross
        rw [ht'] at hw
        exact hw
    · obtain ⟨h1, h2⟩ := vIdx_decomp (by omega) (by omega) (by omega) (by omega) htH he.symm
      have ht2 : t ≤ (H : ℤ) - 1 := by omega
      have haW2 : x ≤ (W : ℤ) - 2 := by omega
      have hcross : bgrid g x (t - 1 + 1) ≠ bgrid g (x + 1) (t - 1 + 1) := by
        rw [ht']
        rw [h1, h2] at hb1 hb2
        omega
      refine foldl_points_write (cellsList W H) (D := (x, t - 1)) ?_ ?_
      · exact mem_cellsList.mpr ⟨by omega, by omega, by omega, by omega⟩
      · intro pts
        have hw := pointsCell_writes_right (W := W) (H := H) (g := g) (x := x) (y := t - 1) pts ⟨by omega, by omega⟩ hx0 (by omega) (by omega) (by omega)
          hcross
        rw [ht'] at hw
        exact hw

/-- Witness for points_valid on gRing: the labeled bottom edge 4 (x-part
1) and the labeled vertical edge 21 (y-part 1) both carry valid points. -/
theorem points_valid_witness :
    ((to_graph_points 4 4 gRing) (hIdx 4 1 0)).isSome ∧
    ((to_graph_points 4 4 gRing) (vIdx 4 4 0 1)).isSome :=
  ⟨(points_valid 4 4 gRing).1 1 0 (by norm_num) (by norm_num) (by norm_num) (by norm_num)
      (by decide),
   (points_valid 4 4 gRing).2 0 1 (by norm_num) (by norm_num) (by norm_num)
      (by decide)⟩

/-! ## Stitching (src/cglib/stitch.py, src/cglib/calc.py, src/cglib/fields.py)

The stitching engine mutates four fields: previous_edge, next_edge,
cycle_index and cycles.  The float patching energies are computed from the
points field with square roots; the embedding keeps them abstract as a
function E of the four flat edge indices involved (I1, I2 = next I1, J1,
J2 = next J1), with none standing for ti.math.inf (or an undefined
value). -/

/-- The mutable state of the stitching engine: the adjacency fields, the
per-edge cycle label and the cycle catalog (start edge, length). -/
structure SState where
  adj : Adj
  cycleIdx : ℤ → ℤ
  cycles : ℤ → ℤ × ℤ

/-- Strict comparison of float energies with none standing for
ti.math.inf: a finite value is below inf, inf is below nothing. -/
def oltQ : Option ℚ → Option ℚ → Bool
  | some a, some b => decide (a < b)
  | some _, none => true
  | none, _ => false

/-- Strict comparison of an integer length against the running minimum of
find_minimal_cycle, none standing for the initial ti.math.inf. -/
def oltZ : ℤ → Option ℤ → Bool
  | _, none => true
  | l, some m => decide (l < m)

/-- Embedding of find_minimal_cycle: one serialized scan of the catalog,
strict improvement only (so the first of several minima wins), records of
length 0 skipped, result initialized to index 0. -/
def find_minimal_cycle (cycles : ℤ → ℤ × ℤ) (nb : ℕ) : ℤ :=
  ((List.range nb).foldl
    (fun (acc : ℤ × Option ℤ) k =>
      if oltZ (cycles (Int.ofNat k)).2 acc.2 ∧ (cycles (Int.ofNat k)).2 ≠ 0 then
        (Int.ofNat k, some (cycles (Int.ofNat k)).2)
      else acc)
    (0, none)).1

/-- Embedding of compute_neighbours_energies: the serialized 5 × 5 × 2
scan around the reference edge i1, skipping candidates in the same cycle
or with no point, keeping the strict minimum and the scan offset where it
was attained; the result repacks the minimal energy with the flat index
rebuilt from that offset. -/
def compute_neighbours_energies (E : ℤ → ℤ → ℤ → ℤ → Option ℚ) (W H : ℕ)
    (next cycleIdx : ℤ → ℤ) (i1 : ℤ) : Option ℚ × ℤ :=
  let e3 := edge_1d_to_3d_index W H i1
  let r := scanOffsets.foldl
    (fun (acc : Option ℚ × ℤ × ℤ × ℤ) o =>
      let j := edge_3d_to_1d_index W H (e3.1 + o.1 - 2) (e3.2.1 + o.2.1 - 2) o.2.2
      if cycleIdx j = cycleIdx i1 ∨ cycleIdx j = -1 then acc
      else
        let en := E i1 (next i1) j (next j)
        if oltQ en acc.1 ∧ en.isSome then (en, o) else acc)
    (none, (0, 0, 0))
  (r.1,
   edge_3d_to_1d_index W H (e3.1 + r.2.1 - 2) (e3.2.1 + r.2.2.1 - 2) r.2.2.2)

/-- Embedding of reset_energies followed by compute_all_energies for the
reference edge i1: the energies field as a function of the flat index
(none = the ti.math.inf stored by the same-cycle and no-point
branches). -/
def all_energies (E : ℤ → ℤ → ℤ → ℤ → Option ℚ)
    (next cycleIdx : ℤ → ℤ) (i1 : ℤ) : ℤ → Option ℚ :=
  fun idx =>
    if cycleIdx idx = cycleIdx i1 then none
    else if cycleIdx idx = -1 then none
    else E i1 (next i1) idx (next idx)

/-- Embedding of find_minimum_in_field: serialized scan of the nE float
slots, strict improvement only, inf slots skipped, result initialized to
(inf, 0). -/
def find_minimum_in_field (f : ℤ → Option ℚ) (nE : ℕ) : Option ℚ × ℤ :=
  (List.range nE).foldl
    (fun (acc : Option ℚ × ℤ) i =>
      if oltQ (f (Int.ofNat i)) acc.1 ∧ (f (Int.ofNat i)).isSome then
        (f (Int.ofNat i), Int.ofNat i)
      else acc)
    (none, 0)

/-- Phase one of find_edges_with_minimum_energy_with_neighbours: walk the
minimal cycle for its recorded length, examining the localized candidate
minimum at each visited edge.  The accumulator is (current edge,
(minimal energy, best I, best J)). -/
def phase1 (E : ℤ → ℤ → ℤ → ℤ → Option ℚ) (W H : ℕ)
    (next cycleIdx : ℤ → ℤ) (start : ℤ) (len : ℕ) :
    ℤ × Option ℚ × ℤ × ℤ :=
  (List.range len).foldl
    (fun (acc : ℤ × Option ℚ × ℤ × ℤ) _ =>
      let mi := compute_neighbours_energies E W H next cycleIdx acc.1
      let best := if oltQ mi.1 acc.2.1 ∧ mi.1.isSome then (mi.1, acc.1, mi.2) else acc.2
      (next acc.1, best))
    (start, none, 0, 0)

/-- Phase two (the fallback): walk the cycle again, this time scanning the
full energies field at each visited edge.  The code reuses the variables
of phase one, which at this point still hold inf and (0, 0), and the walk
continues from the edge where phase one stopped. -/
def phase2 (E : ℤ → ℤ → ℤ → ℤ → Option ℚ) (nE : ℕ)
    (next cycleIdx : ℤ → ℤ) (start : ℤ) (len : ℕ) :
    ℤ × Option ℚ × ℤ × ℤ :=
  (List.range len).foldl
    (fun (acc : ℤ × Option ℚ × ℤ × ℤ) _ =>
      let mi := find_minimum_in_field (all_energies E next cycleIdx acc.1) nE
      let best := if oltQ mi.1 acc.2.1 then (mi.1, acc.1, mi.2) else acc.2
      (next acc.1, best))
    (start, none, 0, 0)

/-- Embedding of find_edges_with_minimum_energy_with_neighbours: phase
one over the minimal cycle; if its minimum is still inf, phase two; the
returned pair is the best (I, J) found, (0, 0) if nothing was found. -/
def find_edges_with_minimum_energy_with_neighbours
    (E : ℤ → ℤ → ℤ → ℤ → Option ℚ) (W H nE : ℕ)
    (next cycleIdx : ℤ → ℤ) (cycles : ℤ → ℤ × ℤ) (m : ℤ) : ℤ × ℤ :=
  let mc := cycles m
  let p1 := phase1 E W H next cycleIdx mc.1 mc.2.toNat
  if p1.2.1 = none then
    let p2 := phase2 E nE next cycleIdx p1.1 mc.2.toNat
    (p2.2.2.1, p2.2.2.2)
  else (p1.2.2.1, p1.2.2.2)

/-- The relabelling while-loop of stitch_two_cycles, with explicit fuel
(the code's loop terminates because the freshly spliced next pointers
cycle back to the stop edge; any sufficient fuel gives the loop's
result). -/
def relabel (next : ℤ → ℤ) (stop c1 : ℤ) : ℕ → ℤ → (ℤ → ℤ) → (ℤ → ℤ)
  | 0, _, ci => ci
  | fuel + 1, point, ci =>
    if point = stop then ci
    else relabel next stop c1 fuel (next point) (Function.update ci point c1)

/-- Embedding of stitch_two_cycles: read the two cycle labels, rewire the
four adjacency pointers (the spliceAdj of the splice analysis), relabel
the merged cycle starting from the new successor of the first edge, then
merge the catalog records, the second becoming the (0, 0) tombstone. -/
def stitch_two_cycles (s : SState) (me : ℤ × ℤ) (fuel : ℕ) : SState :=
  let c1 := s.cycleIdx me.1
  let c2 := s.cycleIdx me.2
  let adj2 := spliceAdj s.adj me.1 me.2
  let ci2 := relabel adj2.next me.1 c1 fuel (adj2.next me.1) s.cycleIdx
  let cyc2 :=
    Function.update
      (Function.update s.cycles c1 ((s.cycles c1).1, (s.cycles c1).2 + (s.cycles c2).2))
      c2 (0, 0)
  ⟨adj2, ci2, cyc2⟩

/-- One iteration of the compiled stitching loop: find the minimal cycle,
find the pair to splice, stitch. -/
def stitch_step (E : ℤ → ℤ → ℤ → ℤ → Option ℚ) (W H nE K fuel : ℕ)
    (s : SState) : SState :=
  let m := find_minimal_cycle s.cycles K
  let me := find_edges_with_minimum_energy_with_neighbours E W H nE
    s.adj.next s.cycleIdx s.cycles m
  stitch_two_cycles s me fuel

/-- Embedding of compiled_stitching_algorithm_with_neighbours: K - 1
serialized iterations of the stitch step, K the size of the cycle
catalog. -/
def compiled_stitching_algorithm_with_neighbours
    (E : ℤ → ℤ → ℤ → ℤ → Option ℚ) (W H nE K fuel : ℕ) (s : SState) : SState :=
  (stitch_step E W H nE K fuel)^[K - 1] s

/-! ## The terminal state of stitching (claim C2) -/

/-- The catalog slots 0, …, K - 1 of the cycles field. -/
def cycleIds (K : ℕ) : Finset ℤ := Finset.Icc 0 ((K : ℤ) - 1)

/-- The edge slots 0, …, nE - 1 of the edge fields. -/
def edgeIds (nE : ℕ) : Finset ℤ := Finset.Icc 0 ((nE : ℤ) - 1)

/-- Number of non-tombstone catalog records. -/
def aliveCount (K : ℕ) (s : SState) : ℕ :=
  ((cycleIds K).filter (fun k => (s.cycles k).2 ≠ 0)).card

/-- Total length recorded in the catalog. -/
def sumLens (K : ℕ) (s : SState) : ℤ :=
  Finset.sum (cycleIds K) (fun k => (s.cycles k).2)

/-- Number of labeled edges: slots whose next_edge is not the
sentinel. -/
def labeledCount (nE : ℕ) (s : SState) : ℕ :=
  ((edgeIds nE).filter (fun e => s.adj.next e ≠ -1)).card

/-- A well-formed choice at the current state: the pair selected for
splicing joins two distinct live in-range cycles through two labeled
edges.  On well-formed extraction output the search always returns such a
pair (the claim's premise); the terminal-state theorem is conditional on
it at every iteration. -/
def GoodPair (E : ℤ → ℤ → ℤ → ℤ → Option ℚ) (W H nE K : ℕ) (s : SState) : Prop :=
  let m := find_minimal_cycle s.cycles K
  let me := find_edges_with_minimum_energy_with_neighbours E W H nE
    s.adj.next s.cycleIdx s.cycles m
  0 ≤ s.cycleIdx me.1 ∧ s.cycleIdx me.1 < (K : ℤ) ∧
  0 ≤ s.cycleIdx me.2 ∧ s.cycleIdx me.2 < (K : ℤ) ∧
  s.cycleIdx me.1 ≠ s.cycleIdx me.2 ∧
  (s.cycles (s.cycleIdx me.1)).2 ≠ 0 ∧ (s.cycles (s.cycleIdx me.2)).2 ≠ 0 ∧
  s.adj.next me.1 ≠ -1 ∧ s.adj.next me.2 ≠ -1

instance (E : ℤ → ℤ → ℤ → ℤ → Option ℚ) (W H nE K : ℕ) (s : SState) :
    Decidable (GoodPair E W H nE K s) := by
  unfold GoodPair; infer_instance

lemma mem_cycleIds {K : ℕ} {k : ℤ} : k ∈ cycleIds K ↔ 0 ≤ k ∧ k < (K : ℤ) := by
  unfold cycleIds
  rw [Finset.mem_Icc]
  omega

lemma len_fun_update (f : ℤ → ℤ × ℤ) (a : ℤ) (v : ℤ × ℤ) :
    (fun k => ((Function.update f a v) k).2) = Function.update (fun k => (f k).2) a v.2 := by
  funext k
  by_cases h : k = a
  · subst h
    rw [Function.update_same, Function.update_same]
  · rw [Function.update_noteq h _ _, Function.update_noteq h _ _]

/-- The effect of one well-formed stitch step on the bookkeeping
quantities: one record dies, total recorded length and the labeled-edge
set are preserved, and lengths stay non-negative. -/
lemma stitch_step_effect (E : ℤ → ℤ → ℤ → ℤ → Option ℚ) (W H nE K fuel : ℕ)
    (s : SState) (hg : GoodPair E W H nE K s)
    (hlen : ∀ k ∈ cycleIds K, 0 ≤ (s.cycles k).2) :
    aliveCount K (stitch_step E W H nE K fuel s) + 1 = aliveCount K s ∧
    (∀ k ∈ cycleIds K, 0 ≤ ((stitch_step E W H nE K fuel s).cycles k).2) ∧
    sumLens K (stitch_step E W H nE K fuel s) = sumLens K s ∧
    labeledCount nE (stitch_step E W H nE K fuel s) = labeledCount nE s := by
  unfold GoodPair at hg
  set m := find_minimal_cycle s.cycles K with hm
  set me := find_edges_with_minimum_energy_with_neighbours E W H nE
    s.adj.next s.cycleIdx s.cycles m with hme
  obtain ⟨hc10, hc1K, hc20, hc2K, hc12, hl1, hl2, hn1, hn2⟩ := hg
  set c1 := s.cycleIdx me.1 with hc1
  set c2 := s.cycleIdx me.2 with hc2
  set l1 := (s.cycles c1).2 with hl1d
  set l2 := (s.cycles c2).2 with hl2d
  have hc1mem : c1 ∈ cycleIds K := mem_cycleIds.2 ⟨hc10, hc1K⟩
  have hc2mem : c2 ∈ cycleIds K := mem_cycleIds.2 ⟨hc20, hc2K⟩
  have hl1pos : 0 < l1 := lt_of_le_of_ne (hlen c1 hc1mem) (Ne.symm hl1)
  have hl2pos : 0 < l2 := lt_of_le_of_ne (hlen c2 hc2mem) (Ne.symm hl2)
  have hstep : stitch_step E W H nE K fuel s = stitch_two_cycles s me fuel := by
    rw [stitch_step]
  have hcyc : (stitch_two_cycles s me fuel).cycles =
      Function.update (Function.update s.cycles c1 ((s.cycles c1).1, l1 + l2)) c2 (0, 0) := by
    rw [stitch_two_cycles]
  have hnext : (stitch_two_cycles s me fuel).adj.next =
      Function.update (Function.update s.adj.next me.1 (s.adj.next me.2)) me.2
        (s.adj.next me.1) := by
    rw [stitch_two_cycles]
    rfl
  have hval : ∀ k : ℤ,
      (Function.update (Function.update s.cycles c1 ((s.cycles c1).1, l1 + l2)) c2 (0, 0) k).2 =
        if k = c2 then 0 else if k = c1 then l1 + l2 else (s.cycles k).2 := by
    intro k
    by_cases h2 : k = c2
    · subst h2
      rw [Function.update_same, if_pos rfl]
    · rw [Function.update_noteq h2 _ _, if_neg h2]
      by_cases h1 : k = c1
      · subst h1
        rw [Function.update_same, if_pos rfl]
      · rw [Function.update_noteq h1 _ _, if_neg h1]
  refine ⟨?_, ?_, ?_, ?_⟩
  · -- one record dies
    rw [hstep]
    unfold aliveCount
    have hset : (cycleIds K).filter (fun k => ((stitch_two_cycles s me fuel).cycles k).2 ≠ 0) =
        ((cycleIds K).filter (fun k => (s.cycles k).2 ≠ 0)).erase c2 := by
      ext k
      rw [Finset.mem_erase, Finset.mem_filter, Finset.mem_filter, hcyc]
      constructor
      · rintro ⟨hk, hnz⟩
        rw [hval] at hnz
        by_cases h2 : k = c2
        · rw [if_pos h2] at hnz
          exact absurd rfl hnz
        · rw [if_neg h2] at hnz
          refine ⟨h2, hk, ?_⟩
          by_cases h1 : k = c1
          · rw [h1]
            omega
          · rw [if_neg h1] at hnz
            exact hnz
      · rintro ⟨h2, hk, hnz⟩
        refine ⟨hk, ?_⟩
        rw [hval, if_neg h2]
        by_cases h1 : k = c1
        · rw [if_pos h1]
          omega
        · rw [if_neg h1]
          exact hnz
    rw [hset]
    have hc2f : c2 ∈ (cycleIds K).filter (fun k => (s.cycles k).2 ≠ 0) :=
      Finset.mem_filter.2 ⟨hc2mem, hl2⟩
    rw [Finset.card_erase_of_mem hc2f]
    have : 0 < ((cycleIds K).filter (fun k => (s.cycles k).2 ≠ 0)).card :=
      Finset.card_pos.2 ⟨c2, hc2f⟩
    omega
  · -- lengths stay non-negative
    intro k hk
    rw [hstep, hcyc, hval]
    by_cases h2 : k = c2
    · rw [if_pos h2]
    · rw [if_neg h2]
      by_cases h1 : k = c1
      · rw [if_pos h1]
        omega
      · rw [if_neg h1]
        exact hlen k hk
  · -- total length preserved
    rw [hstep]
    unfold sumLens
    rw [hcyc]
    have hfun : (fun k => ((Function.update (Function.update s.cycles c1
        ((s.cycles c1).1, l1 + l2)) c2 (0, 0)) k).2) =
        Function.update (Function.update (fun k => (s.cycles k).2) c1 (l1 + l2)) c2 0 := by
      rw [len_fun_update, len_fun_update]
    rw [hfun]
    have hc1e : c1 ∈ (cycleIds K).erase c2 := Finset.mem_erase.2 ⟨hc12, hc1mem⟩
    rw [Finset.sum_update_of_mem hc2mem, ← Finset.erase_eq,
      Finset.sum_update_of_mem hc1e, ← Finset.erase_eq]
    have e2 : Finset.sum (cycleIds K) (fun k => (s.cycles k).2) =
        l2 + Finset.sum ((cycleIds K).erase c2) (fun k => (s.cycles k).2) :=
      (Finset.add_sum_erase (cycleIds K) (fun k => (s.cycles k).2) hc2mem).symm
    have e1 : Finset.sum ((cycleIds K).erase c2) (fun k => (s.cycles k).2) =
        l1 + Finset.sum (((cycleIds K).erase c2).erase c1) (fun k => (s.cycles k).2) :=
      (Finset.add_sum_erase ((cycleIds K).erase c2) (fun k => (s.cycles k).2) hc1e).symm
    rw [e2, e1]
    ring
  · -- labeled edges preserved
    rw [hstep]
    unfold labeledCount
    congr 1
    apply Finset.filter_congr
    intro e _
    rw [hnext]
    have hme12 : me.1 ≠ me.2 := by
      intro h
      rw [hc1, hc2, h] at hc12
      exact hc12 rfl
    by_cases h2 : e = me.2
    · subst h2
      rw [Function.update_same]
      simp only [hn1, hn2, ne_eq, not_false_iff]
    · rw [Function.update_noteq h2 _ _]
      by_cases h1 : e = me.1
      · subst h1
        rw [Function.update_same]
        simp only [hn1, hn2, ne_eq, not_false_iff]
      · rw [Function.update_noteq h1 _ _]

/-- Folding the step effect through n iterations. -/
lemma stitch_iter_effect (E : ℤ → ℤ → ℤ → ℤ → Option ℚ) (W H nE K fuel : ℕ) :
    ∀ (n : ℕ) (s : SState),
      (∀ t, t < n → GoodPair E W H nE K ((stitch_step E W H nE K fuel)^[t] s)) →
      (∀ k ∈ cycleIds K, 0 ≤ (s.cycles k).2) →
      aliveCount K ((stitch_step E W H nE K fuel)^[n] s) + n = aliveCount K s ∧
      (∀ k ∈ cycleIds K, 0 ≤ (((stitch_step E W H nE K fuel)^[n] s).cycles k).2) ∧
      sumLens K ((stitch_step E W H nE K fuel)^[n] s) = sumLens K s ∧
      labeledCount nE ((stitch_step E W H nE K fuel)^[n] s) = labeledCount nE s := by
  intro n
  induction n with
  | zero =>
    intro s _ hlen
    exact ⟨rfl, hlen, rfl, rfl⟩
  | succ n ih =>
    intro s hgood hlen
    have hg0 : GoodPair E W H nE K s := by
      have := hgood 0 (Nat.succ_pos n)
      simpa using this
    obtain ⟨ha, hl, hs, hb⟩ := stitch_step_effect E W H nE K fuel s hg0 hlen
    have hgood' : ∀ t, t < n →
        GoodPair E W H nE K ((stitch_step E W H nE K fuel)^[t]
          (stitch_step E W H nE K fuel s)) := by
      intro t ht
      have := hgood (t + 1) (by omega)
      rwa [Function.iterate_succ_apply] at this
    obtain ⟨iha, ihl, ihs, ihb⟩ := ih (stitch_step E W H nE K fuel s) hgood' hl
    rw [Function.iterate_succ_apply]
    exact ⟨by omega, ihl, by rw [ihs, hs], by rw [ihb, hb]⟩

/-- C2: on a compacted catalog of K live cycles whose total length equals
the number of labeled edges, the engine's K - 1 splice iterations (each
making a well-formed choice) leave exactly one non-tombstone record, and
its length equals the number of labeled edges of the final state (which
the splices never change). -/
theorem stitching_terminal (E : ℤ → ℤ → ℤ → ℤ → Option ℚ) (W H nE K fuel : ℕ)
    (s0 : SState)
    (hK : 1 ≤ K)
    (halive : ∀ k ∈ cycleIds K, 0 < (s0.cycles k).2)
    (hsum : sumLens K s0 = (labeledCount nE s0 : ℤ))
    (hgood : ∀ t, t < K - 1 →
      GoodPair E W H nE K ((stitch_step E W H nE K fuel)^[t] s0)) :
    aliveCount K (compiled_stitching_algorithm_with_neighbours E W H nE K fuel s0) = 1 ∧
    ∃ k ∈ cycleIds K,
      ((compiled_stitching_algorithm_with_neighbours E W H nE K fuel s0).cycles k).2 ≠ 0 ∧
      ((compiled_stitching_algorithm_with_neighbours E W H nE K fuel s0).cycles k).2 =
        (labeledCount nE (compiled_stitching_algorithm_with_neighbours E W H nE K fuel s0) : ℤ) ∧
      ∀ j ∈ cycleIds K, j ≠ k →
        ((compiled_stitching_algorithm_with_neighbours E W H nE K fuel s0).cycles j).2 = 0 := by
  have hlen0 : ∀ k ∈ cycleIds K, 0 ≤ (s0.cycles k).2 :=
    fun k hk => le_of_lt (halive k hk)
  obtain ⟨ha, hl, hs, hb⟩ := stitch_iter_effect E W H nE K fuel (K - 1) s0 hgood hlen0
  have hfin : compiled_stitching_algorithm_with_neighbours E W H nE K fuel s0 =
      (stitch_step E W H nE K fuel)^[K - 1] s0 := rfl
  rw [hfin]
  set fin := (stitch_step E W H nE K fuel)^[K - 1] s0 with hfind
  have hcardIds : (cycleIds K).card = K := by
    unfold cycleIds
    rw [Int.card_Icc]
    omega
  have halive0 : aliveCount K s0 = K := by
    unfold aliveCount
    rw [Finset.filter_true_of_mem (fun k hk => ne_of_gt (halive k hk))]
    exact hcardIds
  have hA : aliveCount K fin = 1 := by omega
  refine ⟨hA, ?_⟩
  obtain ⟨k, hk⟩ := Finset.card_eq_one.1 hA
  have hkf : k ∈ (cycleIds K).filter (fun j => (fin.cycles j).2 ≠ 0) := by
    rw [hk]
    exact Finset.mem_singleton_self k
  have hkmem := Finset.mem_filter.1 hkf
  refine ⟨k, hkmem.1, hkmem.2, ?_, ?_⟩
  · have hsumk : sumLens K fin = (fin.cycles k).2 := by
      unfold sumLens
      rw [← Finset.sum_filter_ne_zero, hk, Finset.sum_singleton]
    rw [← hsumk, hs, hsum, hb]
  · intro j hj hjk
    by_contra hnz
    have : j ∈ (cycleIds K).filter (fun j => (fin.cycles j).2 ≠ 0) :=
      Finset.mem_filter.2 ⟨hj, hnz⟩
    rw [hk, Finset.mem_singleton] at this
    exact hjk this

/-- A concrete input for the terminal-state theorem: a 4 × 4 grid's edge
fields (39 slots) holding two one-edge cycles, the horizontal edges 3 and
5, each its own next/previous successor, with catalog records (3, 1) and
(5, 1); the abstract energy makes the pair (3, 5) the only finite one. -/
def wNext : ℤ → ℤ := fun e => if e = 3 then 3 else if e = 5 then 5 else -1

def wCycleIdx : ℤ → ℤ := fun e => if e = 3 then 0 else if e = 5 then 1 else -1

def wCycles : ℤ → ℤ × ℤ := fun k => if k = 0 then (3, 1) else if k = 1 then (5, 1) else (0, 0)

def wE : ℤ → ℤ → ℤ → ℤ → Option ℚ :=
  fun i1 _ j1 _ => if i1 = 3 ∧ j1 = 5 then some 1 else none

def wS0 : SState := ⟨⟨wNext, wNext⟩, wCycleIdx, wCycles⟩

/-- Witness for stitching_terminal at the two-cycle state wS0. -/
theorem stitching_terminal_witness :
    aliveCount 2 (compiled_stitching_algorithm_with_neighbours wE 4 4 39 2 5 wS0) = 1 ∧
    ∃ k ∈ cycleIds 2,
      ((compiled_stitching_algorithm_with_neighbours wE 4 4 39 2 5 wS0).cycles k).2 ≠ 0 ∧
      ((compiled_stitching_algorithm_with_neighbours wE 4 4 39 2 5 wS0).cycles k).2 =
        (labeledCount 39 (compiled_stitching_algorithm_with_neighbours wE 4 4 39 2 5 wS0) : ℤ) ∧
      ∀ j ∈ cycleIds 2, j ≠ k →
        ((compiled_stitching_algorithm_with_neighbours wE 4 4 39 2 5 wS0).cycles j).2 = 0 :=
  stitching_terminal wE 4 4 39 2 5 wS0 (by norm_num) (by decide) (by decide)
    (by
      intro t ht
      interval_cases t
      decide)

/-! ## The per-iteration choice (claim C6) -/

/-- The loop body of find_minimal_cycle. -/
def fmcStep (cycles : ℤ → ℤ × ℤ) (acc : ℤ × Option ℤ) (k : ℕ) : ℤ × Option ℤ :=
  if oltZ (cycles (Int.ofNat k)).2 acc.2 ∧ (cycles (Int.ofNat k)).2 ≠ 0 then
    (Int.ofNat k, some (cycles (Int.ofNat k)).2)
  else acc

lemma find_minimal_cycle_eq (cycles : ℤ → ℤ × ℤ) (nb : ℕ) :
    find_minimal_cycle cycles nb = ((List.range nb).foldl (fmcStep cycles) (0, none)).1 := rfl

/-- Characterization of the find_minimal_cycle scan: either every record
is a tombstone and the accumulator is untouched, or the accumulator holds
the first record of minimal non-zero length. -/
lemma fmc_fold_spec (cycles : ℤ → ℤ × ℤ) (nb : ℕ) :
    ((List.range nb).foldl (fmcStep cycles) (0, none) = (0, none) ∧
      ∀ k : ℕ, k < nb → (cycles (Int.ofNat k)).2 = 0) ∨
    (∃ j : ℕ, j < nb ∧
      (List.range nb).foldl (fmcStep cycles) (0, none) =
        (Int.ofNat j, some (cycles (Int.ofNat j)).2) ∧
      (cycles (Int.ofNat j)).2 ≠ 0 ∧
      (∀ i : ℕ, i < nb → (cycles (Int.ofNat i)).2 ≠ 0 →
        (cycles (Int.ofNat j)).2 ≤ (cycles (Int.ofNat i)).2) ∧
      (∀ i : ℕ, i < j → (cycles (Int.ofNat i)).2 ≠ 0 →
        (cycles (Int.ofNat j)).2 < (cycles (Int.ofNat i)).2)) := by
  induction nb with
  | zero =>
    left
    exact ⟨rfl, fun k hk => absurd hk (Nat.not_lt_zero k)⟩
  | succ nb ih =>
    rw [List.range_succ, List.foldl_append, List.foldl_cons, List.foldl_nil]
    rcases ih with ⟨hA, hzero⟩ | ⟨j, hj, hA, hnz, hmin, hstrict⟩
    · rw [hA]
      by_cases hz : (cycles (Int.ofNat nb)).2 = 0
      · left
        refine ⟨?_, ?_⟩
        · unfold fmcStep
          rw [if_neg]
          intro hc
          exact hc.2 hz
        · intro k hk
          rcases Nat.lt_succ_iff_lt_or_eq.1 hk with hk' | rfl
          · exact hzero k hk'
          · exact hz
      · right
        refine ⟨nb, Nat.lt_succ_self nb, ?_, hz, ?_, ?_⟩
        · unfold fmcStep
          rw [if_pos]
          exact ⟨rfl, hz⟩
        · intro i hi hinz
          rcases Nat.lt_succ_iff_lt_or_eq.1 hi with hi' | rfl
          · exact absurd (hzero i hi') hinz
          · exact le_refl _
        · intro i hi hinz
          exact absurd (hzero i hi) hinz
    · rw [hA]
      have hcond : oltZ (cycles (Int.ofNat nb)).2 (some (cycles (Int.ofNat j)).2) = true ↔
          (cycles (Int.ofNat nb)).2 < (cycles (Int.ofNat j)).2 := by
        unfold oltZ
        exact decide_eq_true_iff
      by_cases hc : (cycles (Int.ofNat nb)).2 < (cycles (Int.ofNat j)).2 ∧
          (cycles (Int.ofNat nb)).2 ≠ 0
      · right
        refine ⟨nb, Nat.lt_succ_self nb, ?_, hc.2, ?_, ?_⟩
        · unfold fmcStep
          rw [if_pos ⟨hcond.2 hc.1, hc.2⟩]
        · intro i hi hinz
          rcases Nat.lt_succ_iff_lt_or_eq.1 hi with hi' | rfl
          · exact le_trans (le_of_lt hc.1) (hmin i hi' hinz)
          · exact le_refl _
        · intro i hi hinz
          exact lt_of_lt_of_le hc.1 (hmin i hi hinz)
      · right
        refine ⟨j, lt_trans hj (Nat.lt_succ_self nb), ?_, hnz, ?_, hstrict⟩
        · unfold fmcStep
          rw [if_neg]
          intro hcc
          exact hc ⟨hcond.1 hcc.1, hcc.2⟩
        · intro i hi hinz
          rcases Nat.lt_succ_iff_lt_or_eq.1 hi with hi' | rfl
          · exact hmin i hi' hinz
          · by_cases hlt : (cycles (Int.ofNat i)).2 < (cycles (Int.ofNat j)).2
            · exact absurd ⟨hlt, hinz⟩ hc
            · exact le_of_not_lt hlt

lemma oltQ_none_left (a : Option ℚ) : oltQ none a = false := rfl

lemma oltQ_irrefl (a : Option ℚ) : oltQ a a = false := by
  cases a with
  | none => rfl
  | some q =>
    unfold oltQ
    rw [decide_eq_false_iff_not]
    exact lt_irrefl q

lemma oltQ_asymm {a b : Option ℚ} (h : oltQ a b = true) : oltQ b a = false := by
  cases a with
  | none =>
    rw [oltQ_none_left] at h
    exact Bool.noConfusion h
  | some p =>
    cases b with
    | none => rfl
    | some q =>
      unfold oltQ at h ⊢
      rw [decide_eq_true_iff] at h
      rw [decide_eq_false_iff_not, not_lt]
      exact le_of_lt h

/-- Transitivity of the non-strict order induced by oltQ (a ≥ b and
b ≥ c give a ≥ c, where x ≥ y abbreviates oltQ x y = false). -/
lemma oltQ_ge_trans {a b c : Option ℚ} (h1 : oltQ a b = false) (h2 : oltQ b c = false) :
    oltQ a c = false := by
  cases a with
  | none => rfl
  | some p =>
    cases b with
    | none =>
      unfold oltQ at h1
      exact Bool.noConfusion h1
    | some q =>
      cases c with
      | none =>
        unfold oltQ at h2
        exact Bool.noConfusion h2
      | some r =>
        unfold oltQ at h1 h2 ⊢
        rw [decide_eq_false_iff_not, not_lt] at h1 h2
        rw [decide_eq_false_iff_not, not_lt]
        exact le_trans h2 h1

/-- Generic minimality of a fold whose step never raises the running
minimum (first component) and whose step bounds the minimum by the energy
of each good item it processes. -/
lemma foldl_min_general {α β : Type} (step : (Option ℚ × β) → α → (Option ℚ × β))
    (en : α → Option ℚ) (good : α → Prop)
    (hmono : ∀ acc o, oltQ acc.1 (step acc o).1 = false)
    (hbound : ∀ acc o, good o → oltQ (en o) (step acc o).1 = false)
    (l : List α) :
    ∀ acc : Option ℚ × β,
      (∀ o ∈ l, good o → oltQ (en o) (l.foldl step acc).1 = false) ∧
      oltQ acc.1 (l.foldl step acc).1 = false := by
  induction l with
  | nil =>
    intro acc
    exact ⟨fun o ho _ => absurd ho (List.not_mem_nil o), oltQ_irrefl acc.1⟩
  | cons o' l ih =>
    intro acc
    rw [List.foldl_cons]
    obtain ⟨ihmem, ihmono⟩ := ih (step acc o')
    refine ⟨?_, oltQ_ge_trans (hmono acc o') ihmono⟩
    intro o ho hg
    rcases List.mem_cons.1 ho with rfl | hmem
    · exact oltQ_ge_trans (hbound acc o hg) ihmono
    · exact ihmem o hmem hg

/-- The flat index examined at scan offset o around reference edge i. -/
def scanCandidate (W H : ℕ) (i : ℤ) (o : ℤ × ℤ × ℤ) : ℤ :=
  edge_3d_to_1d_index W H ((edge_1d_to_3d_index W H i).1 + o.1 - 2)
    ((edge_1d_to_3d_index W H i).2.1 + o.2.1 - 2) o.2.2

/-- The patching energy of splicing the directed edge at i with the one
at j, as the search computes it. -/
def candEnergy (E : ℤ → ℤ → ℤ → ℤ → Option ℚ) (next : ℤ → ℤ) (i j : ℤ) : Option ℚ :=
  E i (next i) j (next j)

/-- The minimum returned by the localized scan is at or below the energy
of every candidate the scan does not skip. -/
lemma compute_neighbours_energies_min (E : ℤ → ℤ → ℤ → ℤ → Option ℚ) (W H : ℕ)
    (next cycleIdx : ℤ → ℤ) (i1 : ℤ) :
    ∀ o ∈ scanOffsets,
      cycleIdx (scanCandidate W H i1 o) ≠ cycleIdx i1 →
      cycleIdx (scanCandidate W H i1 o) ≠ -1 →
      oltQ (candEnergy E next i1 (scanCandidate W H i1 o))
        (compute_neighbours_energies E W H next cycleIdx i1).1 = false := by
  intro o ho hg1 hg2
  have key := foldl_min_general
    (fun (acc : Option ℚ × ℤ × ℤ × ℤ) o =>
      if cycleIdx (scanCandidate W H i1 o) = cycleIdx i1 ∨
          cycleIdx (scanCandidate W H i1 o) = -1 then acc
      else
        if oltQ (candEnergy E next i1 (scanCandidate W H i1 o)) acc.1 ∧
            (candEnergy E next i1 (scanCandidate W H i1 o)).isSome then
          (candEnergy E next i1 (scanCandidate W H i1 o), o)
        else acc)
    (fun o => candEnergy E next i1 (scanCandidate W H i1 o))
    (fun o => cycleIdx (scanCandidate W H i1 o) ≠ cycleIdx i1 ∧
      cycleIdx (scanCandidate W H i1 o) ≠ -1)
    (by
      intro acc o
      dsimp only
      split_ifs with h1 h2
      · exact oltQ_irrefl acc.1
      · exact oltQ_asymm h2.1
      · exact oltQ_irrefl acc.1)
    (by
      intro acc o hg
      dsimp only
      split_ifs with h1 h2
      · rcases h1 with h | h
        · exact absurd h hg.1
        · exact absurd h hg.2
      · exact oltQ_irrefl _
      · rcases Decidable.not_and_iff_or_not.1 h2 with hlt | hfin
        · rw [Bool.not_eq_true] at hlt
          exact hlt
        · have hnone : candEnergy E next i1 (scanCandidate W H i1 o) = none :=
            Option.not_isSome_iff_eq_none.1 (fun h => hfin (by rw [h]))
          rw [hnone]
          exact oltQ_none_left _)
    scanOffsets (none, (0, 0, 0))
  have hfst : (compute_neighbours_energies E W H next cycleIdx i1).1 =
      (scanOffsets.foldl
        (fun (acc : Option ℚ × ℤ × ℤ × ℤ) o =>
          if cycleIdx (scanCandidate W H i1 o) = cycleIdx i1 ∨
              cycleIdx (scanCandidate W H i1 o) = -1 then acc
          else
            if oltQ (candEnergy E next i1 (scanCandidate W H i1 o)) acc.1 ∧
                (candEnergy E next i1 (scanCandidate W H i1 o)).isSome then
              (candEnergy E next i1 (scanCandidate W H i1 o), o)
            else acc)
        (none, (0, 0, 0))).1 := rfl
  rw [hfst]
  exact key.1 o ho ⟨hg1, hg2⟩

lemma phase1_succ (E : ℤ → ℤ → ℤ → ℤ → Option ℚ) (W H : ℕ)
    (next cycleIdx : ℤ → ℤ) (start : ℤ) (len : ℕ) :
    phase1 E W H next cycleIdx start (len + 1) =
      (next (phase1 E W H next cycleIdx start len).1,
       if oltQ (compute_neighbours_energies E W H next cycleIdx
            (phase1 E W H next cycleIdx start len).1).1
          (phase1 E W H next cycleIdx start len).2.1 ∧
          (compute_neighbours_energies E W H next cycleIdx
            (phase1 E W H next cycleIdx start len).1).1.isSome then
         ((compute_neighbours_energies E W H next cycleIdx
            (phase1 E W H next cycleIdx start len).1).1,
          (phase1 E W H next cycleIdx start len).1,
          (compute_neighbours_energies E W H next cycleIdx
            (phase1 E W H next cycleIdx start len).1).2)
       else (phase1 E W H next cycleIdx start len).2) := by
  unfold phase1
  rw [List.range_succ, List.foldl_append, List.foldl_cons, List.foldl_nil]

/-- The walk of phase one visits next^[t] start at step t. -/
lemma phase1_cur (E : ℤ → ℤ → ℤ → ℤ → Option ℚ) (W H : ℕ)
    (next cycleIdx : ℤ → ℤ) (start : ℤ) (len : ℕ) :
    (phase1 E W H next cycleIdx start len).1 = next^[len] start := by
  induction len with
  | zero => rfl
  | succ len ih =>
    rw [phase1_succ, ih, Function.iterate_succ_apply']

/-- The minimum kept by phase one is at or below the energy of every
candidate examined at any visited edge of the walk. -/
lemma phase1_min (E : ℤ → ℤ → ℤ → ℤ → Option ℚ) (W H : ℕ)
    (next cycleIdx : ℤ → ℤ) (start : ℤ) :
    ∀ len t, t < len → ∀ o ∈ scanOffsets,
      cycleIdx (scanCandidate W H (next^[t] start) o) ≠ cycleIdx (next^[t] start) →
      cycleIdx (scanCandidate W H (next^[t] start) o) ≠ -1 →
      oltQ (candEnergy E next (next^[t] start) (scanCandidate W H (next^[t] start) o))
        (phase1 E W H next cycleIdx start len).2.1 = false := by
  intro len
  induction len with
  | zero =>
    intro t ht
    exact absurd ht (Nat.not_lt_zero t)
  | succ len ih =>
    intro t ht o ho hg1 hg2
    rw [phase1_succ]
    by_cases hc : oltQ (compute_neighbours_energies E W H next cycleIdx
          (phase1 E W H next cycleIdx start len).1).1
        (phase1 E W H next cycleIdx start len).2.1 ∧
        (compute_neighbours_energies E W H next cycleIdx
          (phase1 E W H next cycleIdx start len).1).1.isSome
    · rw [if_pos hc]
      rcases Nat.lt_succ_iff_lt_or_eq.1 ht with ht' | rfl
      · exact oltQ_ge_trans (ih t ht' o ho hg1 hg2) (oltQ_asymm hc.1)
      · rw [← phase1_cur E W H next cycleIdx start t] at hg1 hg2 ⊢
        exact compute_neighbours_energies_min E W H next cycleIdx
          (phase1 E W H next cycleIdx start t).1 o ho hg1 hg2
    · rw [if_neg hc]
      rcases Nat.lt_succ_iff_lt_or_eq.1 ht with ht' | rfl
      · exact ih t ht' o ho hg1 hg2
      · rw [← phase1_cur E W H next cycleIdx start t] at hg1 hg2 ⊢
        have hcne := compute_neighbours_energies_min E W H next cycleIdx
          (phase1 E W H next cycleIdx start t).1 o ho hg1 hg2
        rcases Decidable.not_and_iff_or_not.1 hc with hlt | hfin
        · rw [Bool.not_eq_true] at hlt
          exact oltQ_ge_trans hcne hlt
        · have hnone : (compute_neighbours_energies E W H next cycleIdx
              (phase1 E W H next cycleIdx start t).1).1 = none :=
            Option.not_isSome_iff_eq_none.1 (fun h => hfin (by rw [h]))
          rw [hnone] at hcne
          have : candEnergy E next (phase1 E W H next cycleIdx start t).1
              (scanCandidate W H (phase1 E W H next cycleIdx start t).1 o) = none := by
            rcases Option.eq_none_or_eq_some (candEnergy E next
              (phase1 E W H next cycleIdx start t).1
              (scanCandidate W H (phase1 E W H next cycleIdx start t).1 o)) with h | ⟨v, h⟩
            · exact h
            · rw [h] at hcne
              exact absurd hcne (by unfold oltQ; simp)
          rw [this]
          exact oltQ_none_left _

/-- A state on an 8 × 8 grid with three one-edge cycles: the horizontal
edge 36 (3d index (4, 4, 0), cycle 0), the vertical edge 112 ((4, 4, 1),
cycle 1) and the horizontal edge 37 ((4, 5, 0), cycle 2); the abstract
energy gives the same finite cost to splicing 36 with 112 and 36 with
37. -/
def tNext : ℤ → ℤ :=
  fun e => if e = 36 then 36 else if e = 112 then 112 else if e = 37 then 37 else -1

def tCycleIdx : ℤ → ℤ :=
  fun e => if e = 36 then 0 else if e = 112 then 1 else if e = 37 then 2 else -1

def tCycles : ℤ → ℤ × ℤ :=
  fun k => if k = 0 then (36, 1) else if k = 1 then (112, 1) else if k = 2 then (37, 1)
    else (0, 0)

def tE : ℤ → ℤ → ℤ → ℤ → Option ℚ :=
  fun i1 _ j1 _ => if i1 = 36 ∧ (j1 = 112 ∨ j1 = 37) then some 1 else none

/-- C6 counterexample: with two equally cheap candidates J = 112 and
J = 37 for I = 36 (both in other cycles, both labeled), the search
returns (36, 112), the candidate met first in the 5 × 5 × 2 scan order,
although 37 < 112 — the tie is not broken by the lowest edge id of J. -/
theorem tie_break_counterexample :
    find_minimal_cycle tCycles 3 = 0 ∧
    find_edges_with_minimum_energy_with_neighbours tE 8 8 143 tNext tCycleIdx tCycles
      (find_minimal_cycle tCycles 3) = (36, 112) ∧
    tE 36 (tNext 36) 37 (tNext 37) = tE 36 (tNext 36) 112 (tNext 112) ∧
    tCycleIdx 37 ≠ tCycleIdx 36 ∧ tCycleIdx 37 ≠ -1 ∧ (37 : ℤ) < 112 := by
  refine ⟨by decide, by decide, by decide, by decide, by decide, by decide⟩

/-- C6 amended: each iteration's choice is a deterministic function of
the current state; the target is the record of minimal non-zero length
with ties broken by smallest id; and whenever the localized phase finds a
finite minimum the returned pair is the phase-one pair, whose cost is at
or below the cost of every localized candidate examined along the walk
(equal costs keep the earlier candidate in walk/scan order, not the
lowest edge id). -/
theorem stitch_choice (E : ℤ → ℤ → ℤ → ℤ → Option ℚ) (W H nE K : ℕ)
    (next cycleIdx : ℤ → ℤ) (cycles : ℤ → ℤ × ℤ)
    (k : ℕ) (hk : k < K) (hnz : (cycles (Int.ofNat k)).2 ≠ 0) :
    (∃ j : ℕ, j < K ∧ find_minimal_cycle cycles K = Int.ofNat j ∧
      (cycles (Int.ofNat j)).2 ≠ 0 ∧
      ∀ i : ℕ, i < K → (cycles (Int.ofNat i)).2 ≠ 0 →
        (cycles (Int.ofNat j)).2 ≤ (cycles (Int.ofNat i)).2 ∧
        ((cycles (Int.ofNat i)).2 = (cycles (Int.ofNat j)).2 → j ≤ i)) ∧
    (∀ m : ℤ,
      (phase1 E W H next cycleIdx (cycles m).1 (cycles m).2.toNat).2.1 ≠ none →
      find_edges_with_minimum_energy_with_neighbours E W H nE next cycleIdx cycles m =
        ((phase1 E W H next cycleIdx (cycles m).1 (cycles m).2.toNat).2.2.1,
         (phase1 E W H next cycleIdx (cycles m).1 (cycles m).2.toNat).2.2.2)) ∧
    (∀ m : ℤ, ∀ t, t < (cycles m).2.toNat → ∀ o ∈ scanOffsets,
      cycleIdx (scanCandidate W H (next^[t] (cycles m).1) o) ≠
        cycleIdx (next^[t] (cycles m).1) →
      cycleIdx (scanCandidate W H (next^[t] (cycles m).1) o) ≠ -1 →
      oltQ (candEnergy E next (next^[t] (cycles m).1)
          (scanCandidate W H (next^[t] (cycles m).1) o))
        (phase1 E W H next cycleIdx (cycles m).1 (cycles m).2.toNat).2.1 = false) := by
  refine ⟨?_, ?_, ?_⟩
  · rcases fmc_fold_spec cycles K with ⟨_, hzero⟩ | ⟨j, hj, hA, hjnz, hmin, hstrict⟩
    · exact absurd (hzero k hk) hnz
    · refine ⟨j, hj, ?_, hjnz, ?_⟩
      · rw [find_minimal_cycle_eq, hA]
      · intro i hi hinz
        refine ⟨hmin i hi hinz, ?_⟩
        intro heq
        by_contra hji
        have : j ≤ i ∨ i < j := le_or_lt j i
        rcases this with h | h
        · exact hji h
        · exact absurd heq (by
            have := hstrict i h hinz
            omega)
  · intro m hne
    simp only [find_edges_with_minimum_energy_with_neighbours]
    rw [if_neg hne]
  · intro m t ht o ho hg1 hg2
    exact phase1_min E W H next cycleIdx (cycles m).1 (cycles m).2.toNat t ht o ho hg1 hg2

/-- Witness for stitch_choice at the three-cycle state of the tie-break
analysis, with the live cycle 0 as the guarantee. -/
theorem stitch_choice_witness :
    (∃ j : ℕ, j < 3 ∧ find_minimal_cycle tCycles 3 = Int.ofNat j ∧
      (tCycles (Int.ofNat j)).2 ≠ 0 ∧
      ∀ i : ℕ, i < 3 → (tCycles (Int.ofNat i)).2 ≠ 0 →
        (tCycles (Int.ofNat j)).2 ≤ (tCycles (Int.ofNat i)).2 ∧
        ((tCycles (Int.ofNat i)).2 = (tCycles (Int.ofNat j)).2 → j ≤ i)) ∧
    (∀ m : ℤ,
      (phase1 tE 8 8 tNext tCycleIdx (tCycles m).1 (tCycles m).2.toNat).2.1 ≠ none →
      find_edges_with_minimum_energy_with_neighbours tE 8 8 143 tNext tCycleIdx tCycles m =
        ((phase1 tE 8 8 tNext tCycleIdx (tCycles m).1 (tCycles m).2.toNat).2.2.1,
         (phase1 tE 8 8 tNext tCycleIdx (tCycles m).1 (tCycles m).2.toNat).2.2.2)) ∧
    (∀ m : ℤ, ∀ t, t < (tCycles m).2.toNat → ∀ o ∈ scanOffsets,
      tCycleIdx (scanCandidate 8 8 (tNext^[t] (tCycles m).1) o) ≠
        tCycleIdx (tNext^[t] (tCycles m).1) →
      tCycleIdx (scanCandidate 8 8 (tNext^[t] (tCycles m).1) o) ≠ -1 →
      oltQ (candEnergy tE tNext (tNext^[t] (tCycles m).1)
          (scanCandidate 8 8 (tNext^[t] (tCycles m).1) o))
        (phase1 tE 8 8 tNext tCycleIdx (tCycles m).1 (tCycles m).2.toNat).2.1 = false) :=
  stitch_choice tE 8 8 143 3 tNext tCycleIdx tCycles 0 (by norm_num) (by decide)

end Iso
